import Mathlib

/-!
Shallow embedding of the vocabulary / class-assignment engine of
`DependencyTreeRNN++` (file `src/DependencyTreeRNN++/Vocabulary.cpp`),
together with theorems settling the frozen claims about it.

Modelling conventions:
* C++ `int` is modelled by `Int`; `INT_MAX` is `2147483647`.
* `std::map<std::string,int>` / `std::unordered_map` members are modelled by
  association lists with in-place overwrite on insert; only their lookup
  behaviour (and size) is observed by the embedded code.
* `std::set` members are modelled by duplicate-free lists in insertion order;
  the embedded loops that iterate over them are order-independent (proved
  pointwise), so the iteration order of the C++ sorted set is immaterial.
* `double` arithmetic in `AssignWordsToClasses` is modelled over `ℚ`, with the
  `sqrt` calls abstracted as an arbitrary parameter `fsqrt : ℚ → ℚ`; every
  theorem about that function is proved for all `fsqrt`, hence holds in
  particular for the rounded double-precision square root.
* `std::sort` is modelled by `List.insertionSort` with the comparator
  `OrderWordCounts` (`a.cn > b.cn`) turned into the reflexive order
  `b.cn ≤ a.cn`.  On every concrete input used in a theorem below the sort
  keys are pairwise distinct, so the result is the unique permutation sorted
  by the comparator and does not depend on the choice of sorting algorithm.
* File I/O: files are modelled as the data the `fscanf` loops extract from
  them (`List Char` for the serialized model file, `List (String × Int)` for
  the class file).  Reads of uninitialized variables after a failed `fscanf`
  conversion (undefined behaviour in C++) are modelled as `Option.none`.
-/

namespace DepTreeRnn

/-- One entry of `m_vocabularyStorage`.  The struct `VocabWord` is declared in
`Vocabulary.h`, which is not part of the excerpt; the fields are modelled from
the spec data model: word token, count `cn`, class index, and the unused
smoothed probability `prob`. -/
structure VocabWord where
  word : String
  cn : Int
  classIndex : Int
  prob : ℚ
  deriving DecidableEq, Repr

/-- `INT_MAX` from `<climits>` (32-bit int). -/
def INT_MAX : Int := 2147483647

/-- Model of `std::map<std::string, int>`: association list, first match wins. -/
abbrev AssocMap := List (String × Int)

/-- Lookup in an association map (`map.find`). -/
def lookupAssoc : AssocMap → String → Option Int
  | [], _ => none
  | (k, v) :: m, w => if k = w then some v else lookupAssoc m w

/-- `map[w] = c`: overwrite in place if the key is present, else append. -/
def insertAssoc : AssocMap → String → Int → AssocMap
  | [], w, c => [(w, c)]
  | (k, v) :: m, w, c => if k = w then (k, c) :: m else (k, v) :: insertAssoc m w c

/-- `std::set<int>.insert` on a duplicate-free list. -/
def insertIntSet (s : List Int) (c : Int) : List Int :=
  if c ∈ s then s else s ++ [c]

/-- `std::set<std::string>.insert` on a duplicate-free list. -/
def insertStrSet (s : List String) (w : String) : List String :=
  if w ∈ s then s else s ++ [w]

/-- The word → index map `m_mapWord2Index` rebuilt from a storage word list:
`for index in 0..n-1: m_mapWord2Index[word] = index`. -/
def buildWordMap (ws : List String) : AssocMap :=
  (ws.zip (List.range ws.length)).foldl (fun m p => insertAssoc m p.1 (p.2 : Int)) []

/-- The index → word map `m_mapIndex2Word` rebuilt from a storage word list. -/
def buildIndexMap (ws : List String) : List (Int × String) :=
  (ws.zip (List.range ws.length)).map (fun p => ((p.2 : Int), p.1))

/-- The `Vocabulary` object: entry storage plus the two inverse maps. -/
structure Vocabulary where
  storage : List VocabWord
  mapWord2Index : AssocMap
  mapIndex2Word : List (Int × String)
  deriving DecidableEq, Repr

/-- A vocabulary whose two maps satisfy the in-sync invariant for `storage`. -/
def mkVocabulary (st : List VocabWord) : Vocabulary :=
  ⟨st, buildWordMap (st.map (·.word)), buildIndexMap (st.map (·.word))⟩

/-- `Vocabulary::SearchWordInVocabulary`: index of a word, `-1` if OOV. -/
def searchWordInVocabulary (v : Vocabulary) (w : String) : Int :=
  (lookupAssoc v.mapWord2Index w).getD (-1)

/-- Read the count field at a storage position (always in range where used). -/
def cnAt (st : List VocabWord) (i : ℕ) : Int :=
  ((st.get? i).map (·.cn)).getD 0

/-- Read the class-index field at a storage position. -/
def classIndexAt (st : List VocabWord) (i : ℕ) : Int :=
  ((st.get? i).map (·.classIndex)).getD 0

/-- `m_vocabularyStorage[i].cn = c` (in range where used). -/
def setCnAt : List VocabWord → ℕ → Int → List VocabWord
  | [], _, _ => []
  | e :: st, 0, c => { e with cn := c } :: st
  | e :: st, n + 1, c => e :: setCnAt st n c

/-- The comparator `OrderWordCounts` (`a.cn > b.cn`) as the reflexive relation
"`a` may precede `b`" handed to the model of `std::sort`. -/
def orderWordCounts (a b : VocabWord) : Prop := b.cn ≤ a.cn

instance : DecidableRel orderWordCounts := fun a b => Int.decLe b.cn a.cn

/-- `Vocabulary::SortVocabularyByFrequency`.  Faithful to the C++ source,
including the slip it contains: `indexEos` is the index of `"</s>"` *before*
the sort, the count is pinned to `INT_MAX`, the storage is sorted, and then
`m_vocabularyStorage[indexEos].cn = countEos` restores the saved count at the
**stale pre-sort** index of the now-sorted storage.  The out-of-range case
(`"</s>"` absent, undefined behaviour via a `-1` index in C++) is modelled as
the identity and is not reached in any theorem below. -/
def sortVocabularyByFrequency (v : Vocabulary) : Vocabulary :=
  let indexEos := searchWordInVocabulary v "</s>"
  if 0 ≤ indexEos ∧ indexEos.toNat < v.storage.length then
    let iN := indexEos.toNat
    let countEos := cnAt v.storage iN
    let st1 := setCnAt v.storage iN INT_MAX
    let st2 := List.insertionSort orderWordCounts st1
    let st3 := setCnAt st2 iN countEos
    { storage := st3
      mapWord2Index := buildWordMap (st3.map (·.word))
      mapIndex2Word := buildIndexMap (st3.map (·.word)) }
  else v

/-! ### `Vocabulary::ReadClasses` -/

/-- The mutable locals and members threaded through the `fscanf` loop of
`ReadClasses`: `m_mapWord2Class`, `m_classes`, the local `std::set` `words`,
and the locals `eos_class` / `max_class` (both initialized to `-1`). -/
structure RCState where
  map : AssocMap
  classes : List Int
  words : List String
  eosClass : Int
  maxClass : Int
  deriving DecidableEq, Repr

/-- Initial state of the loop on entry to `ReadClasses`, over whatever the
member maps already contain. -/
def rcInit (m0 : AssocMap) (cls0 : List Int) : RCState :=
  ⟨m0, cls0, [], -1, -1⟩

/-- The `while (fscanf(fin, "%s%d", w, &clnum) != EOF)` loop.  The second
component is `false` when the loop aborted on the reserved token `"<s>"`
(`return false;`), in which case the first component is the state at that
moment (the already-inserted entries are kept: the members are mutated in
place). -/
def readClassesLoop : List (String × Int) → RCState → RCState × Bool
  | [], st => (st, true)
  | (w, c) :: rest, st =>
    if w = "<s>" then (st, false)
    else
      readClassesLoop rest
        { map := insertAssoc st.map w c
          classes := insertIntSet st.classes c
          words := insertStrSet st.words w
          eosClass := if w = "</s>" then c else st.eosClass
          maxClass := if st.maxClass < c then c else st.maxClass }

/-- One iteration of the post-processing pass of `ReadClasses`, on word `w`:
if `m_mapWord2Class[w] == eos_class` it becomes `max_class`, else if it equals
`max_class` it becomes `eos_class`.  `operator[]` is modelled as a defaulted
lookup; every iterated word is a key of the map at every use site. -/
def swapStep (eosC maxC : Int) (m : AssocMap) (w : String) : AssocMap :=
  if (lookupAssoc m w).getD 0 = eosC then insertAssoc m w maxC
  else if (lookupAssoc m w).getD 0 = maxC then insertAssoc m w eosC
  else m

/-- The whole post-processing pass of `ReadClasses`: `swapStep` folded over
the iterated word set. -/
def swapPass (eosC maxC : Int) (words : List String) (m : AssocMap) : AssocMap :=
  words.foldl (swapStep eosC maxC) m

/-- `Vocabulary::ReadClasses`, on the list of `(word, class)` pairs the
`fscanf` loop extracts from the file, starting from member state
`(m0, cls0)`.  Returns the C++ return value and the final `m_mapWord2Class`.
The unreadable-file branch (`fopen` fails) returns `false` before the loop and
is modelled by the caller not invoking this function. -/
def readClasses (input : List (String × Int)) (m0 : AssocMap) (cls0 : List Int) :
    Bool × AssocMap :=
  let r := readClassesLoop input (rcInit m0 cls0)
  if r.2 = false then (false, r.1.map)
  else if r.1.eosClass = -1 then (false, r.1.map)
  else if r.1.map.length = 0 then (false, r.1.map)
  else (true, swapPass r.1.eosClass r.1.maxClass r.1.words r.1.map)

/-- `max_class` recomputed directly from the file contents. -/
def fileMaxClass (input : List (String × Int)) : Int :=
  input.foldl (fun m p => if m < p.2 then p.2 else m) (-1)

/-! ### `Vocabulary::AssignWordsToClasses` -/

/-- The external-class compaction loop of `AssignWordsToClasses`
(`m_useClassFile == true`), on the list of pre-compaction class indices:
`cnum = -1; last = -1; for i: if (class[i] != last) { last = class[i];
class[i] = ++cnum; } else class[i] = cnum;`. -/
def compactAux (last cnum : Int) : List Int → List Int
  | [] => []
  | x :: xs =>
    if x ≠ last then (cnum + 1) :: compactAux x (cnum + 1) xs
    else cnum :: compactAux last cnum xs

/-- External-class compaction started from the sentinels `last = cnum = -1`. -/
def compactClasses (l : List Int) : List Int :=
  compactAux (-1) (-1) l

/-- External mode applied to the storage: each entry's `classIndex` is
overwritten by the compacted value and `prob` is reset to `0`. -/
def applyCompact (st : List VocabWord) : List VocabWord :=
  (st.zip (compactClasses (st.map (·.classIndex)))).map
    (fun p => { p.1 with classIndex := p.2, prob := 0 })

/-- The frequency-mass loop of `AssignWordsToClasses` (`else` branch).
State: the cumulative mass `df` and the class pointer `a`.  Steps, per entry:
`df += sqrt(cn/b)/dd; if (df > 1) df = 1; if (df > (a+1)/sizeClasses)
{ classIndex = a; if (a < sizeClasses-1) a++; } else classIndex = a;`.
`fsqrt` abstracts the double-precision `sqrt`; `b` and `dd` are the
precomputed total count and normalizer.  Returns the updated entries and the
final value of the pointer `a`. -/
def freqAssignAux (fsqrt : ℚ → ℚ) (b dd : ℚ) (k : ℕ) :
    ℚ → ℕ → List VocabWord → List VocabWord × ℕ
  | _, a, [] => ([], a)
  | df, a, e :: es =>
    let df1 := df + fsqrt ((e.cn : ℚ) / b) / dd
    let df2 := if 1 < df1 then 1 else df1
    let e1 := { e with classIndex := (a : Int), prob := 0 }
    let a1 := if ((a : ℚ) + 1) / (k : ℚ) < df2 then (if a < k - 1 then a + 1 else a) else a
    let r := freqAssignAux fsqrt b dd k df2 a1 es
    (e1 :: r.1, r.2)

/-- The precomputed total `b = Σ cn` of the frequency-mass mode (an `int` in
the C++, used as a `double` denominator). -/
def freqTotal (st : List VocabWord) : ℚ :=
  (((st.map (·.cn)).foldl (· + ·) 0 : Int) : ℚ)

/-- The precomputed normalizer `dd = Σ sqrt(cn/b)` of the frequency-mass
mode. -/
def freqNorm (fsqrt : ℚ → ℚ) (st : List VocabWord) : ℚ :=
  (st.map (fun e => fsqrt ((e.cn : ℚ) / freqTotal st))).foldl (· + ·) 0

/-- Frequency-mass class assignment of the whole storage:
`b = Σ cn; dd = Σ sqrt(cn/b); df = 0; a = 0;` then the loop. -/
def freqAssign (fsqrt : ℚ → ℚ) (k : ℕ) (st : List VocabWord) :
    List VocabWord × ℕ :=
  freqAssignAux fsqrt (freqTotal st) (freqNorm fsqrt st) k 0 0 st

/-- `m_classWords`: for each class `0 ≤ c < k`, the vocabulary indices pushed
into `m_classWords[c]` by the grouping loop, in increasing index order. -/
def classWords (k : ℕ) (st : List VocabWord) : List (List ℕ) :=
  (List.range k).map
    (fun c : ℕ =>
      (List.range st.length).filter (fun i => classIndexAt st i = (c : Int)))

/-- `Vocabulary::AssignWordsToClasses`: runs one of the two assignment modes,
rebuilds `m_classWords`, and checks `assert(!(m_classWords[i].empty()))` for
every class; an empty class aborts the process, modelled as `none`. -/
def assignWordsToClasses (fsqrt : ℚ → ℚ) (useClassFile : Bool) (k : ℕ)
    (v : Vocabulary) : Option Vocabulary :=
  let st1 := if useClassFile then applyCompact v.storage else (freqAssign fsqrt k v.storage).1
  if (classWords k st1).all (fun g => !g.isEmpty) then
    some { v with storage := st1 }
  else none

/-- Count currently associated with a word, read back through the maps. -/
def wordCountIn (v : Vocabulary) (w : String) : Int :=
  cnAt v.storage (searchWordInVocabulary v w).toNat

/-- A reachable vocabulary state: four words in insertion order with `"</s>"`
added last (pre-sort index 3). -/
def vocabACBS : Vocabulary :=
  mkVocabulary [⟨"a", 10, 0, 0⟩, ⟨"b", 7, 0, 0⟩, ⟨"c", 6, 0, 0⟩, ⟨"</s>", 9, 0, 0⟩]

/-- A reachable vocabulary state: two words, `"</s>"` at pre-sort index 1. -/
def vocabAS : Vocabulary :=
  mkVocabulary [⟨"a", 10, 0, 0⟩, ⟨"</s>", 5, 0, 0⟩]

/-- The value exchange performed by the post-processing pass of `ReadClasses`
on a single class id. -/
def swapVal (eosC maxC c : Int) : Int :=
  if c = eosC then maxC else if c = maxC then eosC else c

/-! ### `ReadClasses` loop invariants -/

/-- The state after the scan knows `"</s>"`: the map holds it, `eos_class`
equals its stored class, and that class is non-negative. -/
def rcHasEos (st : RCState) : Prop :=
  ∃ c, lookupAssoc st.map "</s>" = some c ∧ st.eosClass = c ∧ 0 ≤ c

/-- The single-pair state update of the `ReadClasses` scan loop. -/
def rcStep (st : RCState) (w : String) (c : Int) : RCState :=
  { map := insertAssoc st.map w c
    classes := insertIntSet st.classes c
    words := insertStrSet st.words w
    eosClass := if w = "</s>" then c else st.eosClass
    maxClass := if st.maxClass < c then c else st.maxClass }

/-! ### External-class compaction (C7) -/

/-- Defaulted positional read of an `Int` list (all uses are in range). -/
def intAt (xs : List Int) (i : ℕ) : Int :=
  (xs.get? i).getD 0

/-- The conjunction of structural properties claimed of the frequency-mass
mode: class ids lie in `[0, numClasses-1]`; the class pointer saturates at
`numClasses-1`; counts are untouched; each vocabulary index belongs to
exactly one class; `m_classWords` groups exactly the indices of each class;
and the per-class member-count sums add up to the total count. -/
def freqModePartitionProps (fsqrt : ℚ → ℚ) (k : ℕ) (v : Vocabulary) : Prop :=
  (∀ e ∈ (freqAssign fsqrt k v.storage).1,
    0 ≤ e.classIndex ∧ e.classIndex ≤ (k : Int) - 1) ∧
  (freqAssign fsqrt k v.storage).2 ≤ k - 1 ∧
  (freqAssign fsqrt k v.storage).1.map (·.cn) = v.storage.map (·.cn) ∧
  (∀ i, i < (freqAssign fsqrt k v.storage).1.length →
    ∃! c, c < k ∧ classIndexAt (freqAssign fsqrt k v.storage).1 i = (c : Int)) ∧
  (∀ c, c < k → (classWords k (freqAssign fsqrt k v.storage).1)[c]? =
    some ((List.range (freqAssign fsqrt k v.storage).1.length).filter
      (fun i => classIndexAt (freqAssign fsqrt k v.storage).1 i = (c : Int)))) ∧
  (∑ c ∈ Finset.range k,
      ∑ i ∈ (Finset.range (freqAssign fsqrt k v.storage).1.length).filter
        (fun i => classIndexAt (freqAssign fsqrt k v.storage).1 i = (c : Int)),
      cnAt (freqAssign fsqrt k v.storage).1 i =
    ∑ i ∈ Finset.range (freqAssign fsqrt k v.storage).1.length,
      cnAt (freqAssign fsqrt k v.storage).1 i)

/-! ### Serialized save / load (C8)

The model file is a character stream.  `fprintf` is modelled by decimal
rendering with space padding; `fscanf` conversions (`%d`, `%s`) by scanners
with C semantics: skip `isspace` characters, then consume a maximal run. -/

/-- C's `isspace`, the whitespace class skipped by `fscanf` conversions. -/
def isSpaceChar (c : Char) : Bool :=
  c = ' ' || c = '\t' || c = '\n' || c = '\r' || c = '\x0B' || c = '\x0C'

/-- Decimal digit class consumed by `%d`. -/
def isDigitChar (c : Char) : Bool :=
  c.isDigit

/-- Character of a decimal digit (every use has `d < 10`). -/
def digitChar (d : ℕ) : Char :=
  match d with
  | 0 => '0' | 1 => '1' | 2 => '2' | 3 => '3' | 4 => '4'
  | 5 => '5' | 6 => '6' | 7 => '7' | 8 => '8' | _ => '9'

/-- Numeric value of a decimal digit character. -/
def digitVal (c : Char) : ℕ :=
  c.toNat - 48

/-- Little-endian decimal digits of `n`, fuel-recursive so that it reduces
in the kernel (shown equal to `Nat.digits 10 n` below). -/
def natDigitsAux : ℕ → ℕ → List ℕ
  | 0, _ => []
  | fuel + 1, n => if n = 0 then [] else n % 10 :: natDigitsAux fuel (n / 10)

/-- Little-endian decimal digits of `n`. -/
def natDigits (n : ℕ) : List ℕ :=
  natDigitsAux n n

/-- Decimal rendering of a natural number. -/
def natChars (n : ℕ) : List Char :=
  if n = 0 then ['0'] else (natDigits n).reverse.map digitChar

/-- Decimal rendering of an `int` (`printf %d`). -/
def intChars (n : Int) : List Char :=
  if n < 0 then '-' :: natChars n.natAbs else natChars n.toNat

/-- Left-pad with spaces to a field width (`%6d`, `%10d`). -/
def padLeft (w : ℕ) (cs : List Char) : List Char :=
  List.replicate (w - cs.length) ' ' ++ cs

/-- Value of a digit run, most significant first. -/
def digitsVal (ds : List Char) : ℕ :=
  ds.foldl (fun a c => 10 * a + digitVal c) 0

/-- Maximal digit run and its value; `none` when no digit converts. -/
def scanNatDigits (cs : List Char) : Option (ℕ × List Char) :=
  let ds := cs.takeWhile isDigitChar
  if ds.isEmpty then none else some (digitsVal ds, cs.dropWhile isDigitChar)

/-- Sign-and-digit-run step of `%d`, applied after whitespace skipping. -/
def scanIntAux : List Char → Option (Int × List Char)
  | [] => none
  | c :: cs2 =>
    if c = '-' then (scanNatDigits cs2).map (fun p => (-(p.1 : Int), p.2))
    else if c = '+' then (scanNatDigits cs2).map (fun p => ((p.1 : Int), p.2))
    else (scanNatDigits (c :: cs2)).map (fun p => ((p.1 : Int), p.2))

/-- `fscanf %d`: skip whitespace, optional sign, maximal digit run.  A read
that converts nothing leaves the C++ target uninitialized (undefined
behaviour downstream), modelled as `none`. -/
def scanInt (cs : List Char) : Option (Int × List Char) :=
  scanIntAux (cs.dropWhile isSpaceChar)

/-- `fscanf %s`: skip whitespace, take the maximal non-whitespace run;
fails only when the input is exhausted. -/
def scanToken (cs : List Char) : Option (String × List Char) :=
  let cs1 := cs.dropWhile isSpaceChar
  let t := cs1.takeWhile (fun c => !isSpaceChar c)
  if t.isEmpty then none
  else some (String.mk t, cs1.dropWhile (fun c => !isSpaceChar c))

/-- The `"\nVocabulary:\n"` header written by `Vocabulary::Save`. -/
def vocabHeaderChars : List Char :=
  '\n' :: ("Vocabulary:".data ++ ['\n'])

/-- One row of `Vocabulary::Save`:
`fprintf(fo, "%6d\t%10d\t%s\t%d\n", wordIndex, wordCount, word, wordClass)`. -/
def renderRow (i : ℕ) (e : VocabWord) : List Char :=
  padLeft 6 (intChars (i : Int)) ++
    '\t' :: (padLeft 10 (intChars e.cn) ++
      '\t' :: (e.word.data ++
        '\t' :: (intChars e.classIndex ++ ['\n'])))

/-- The row loop of `Vocabulary::Save`, from index `i`. -/
def saveRows : ℕ → List VocabWord → List Char
  | _, [] => []
  | i, e :: es => renderRow i e ++ saveRows (i + 1) es

/-- `Vocabulary::Save`: header line then one row per word. -/
def saveVocabulary (v : Vocabulary) : List Char :=
  vocabHeaderChars ++ saveRows 0 v.storage

/-- The `%s` read of the constructor: on failure the word keeps the zeroed
buffer, i.e. `""`, and the stream position is unchanged (the stream is at
end of input in that case). -/
def scanWordOr (cs : List Char) : String × List Char :=
  match scanToken cs with
  | none => ("", cs)
  | some q => q

/-- One iteration of the `FILE*` constructor's loop at index `a`: `%d%d`
(index, count — a failed conversion leaves the variable uninitialized,
modelled `none`), `assert(wordIndex == a)` (abort modelled `none`), `%s`
(the word, via `scanWordOr`), then `%d` (class). -/
def loadRow (a : ℕ) (cs : List Char) : Option (VocabWord × List Char) :=
  (scanInt cs).bind fun p1 =>
    (scanInt p1.2).bind fun p2 =>
      if p1.1 = (a : Int) then
        (scanInt (scanWordOr p2.2).2).map fun p3 =>
          (⟨(scanWordOr p2.2).1, p2.1, p3.1, 0⟩, p3.2)
      else none

/-- The constructor's `for (a = 0; a < sizeVocabulary; a++)` loop. -/
def loadRows : ℕ → ℕ → List Char → Option (List VocabWord)
  | 0, _, _ => some []
  | n + 1, a, cs =>
    match loadRow a cs with
    | none => none
    | some (e, cs1) =>
      match loadRows n (a + 1) cs1 with
      | none => none
      | some es => some (e :: es)

/-- `Vocabulary::Vocabulary(FILE*, sizeVocabulary)`: reads the rows and
fills the two maps (the per-iteration `m_mapWord2Index[word] = wordIndex`
inserts, with `wordIndex = a` enforced by the assert, fold to exactly the
canonical map build over the read words in order). -/
def loadVocabulary (cs : List Char) (n : ℕ) : Option Vocabulary :=
  (loadRows n 0 cs).map mkVocabulary

/-- Modelled from the spec: the serialized model format places the
`"\nVocabulary:\n"` header (written by `Save`) before the rows, and the
model-file reader — the constructor's caller, whose code is not under
`src/` — positions the stream past that header line before invoking the
`FILE*` constructor. -/
def consumeVocabularyHeader (cs : List Char) : List Char :=
  if cs.take vocabHeaderChars.length = vocabHeaderChars then
    cs.drop vocabHeaderChars.length
  else cs

/-! ### Theorems -/

/-- C1: the claim states that after `SortVocabularyByFrequency` the counts at
indices `≥ 1` are non-increasing.  On the vocabulary
`[a:10, b:7, c:6, </s>:9]` the code pins `</s>`'s count to `INT_MAX`, sorts,
and then restores the saved count `9` at the *pre-sort* index `3` of the
*sorted* storage, overwriting `c`'s count: the result has counts
`[INT_MAX, 10, 7, 9]`, and `7 < 9` at the index pair `2 < 3` (both `≥ 1`)
violates the claimed descending order. -/
theorem sortByFrequency_count_order_violated :
    (sortVocabularyByFrequency vocabACBS).storage.map (fun e => (e.word, e.cn)) =
      [("</s>", INT_MAX), ("a", 10), ("b", 7), ("c", 9)] ∧
    cnAt (sortVocabularyByFrequency vocabACBS).storage 2 <
      cnAt (sortVocabularyByFrequency vocabACBS).storage 3 := by
  constructor
  · rfl
  · decide

/-- C2: the claim states that `SortVocabularyByFrequency` leaves every word's
count unchanged.  On the vocabulary `[a:10, </s>:5]` the restore
`m_vocabularyStorage[indexEos].cn = countEos` uses the pre-sort index `1` of
`</s>` against the sorted storage, so `</s>` keeps the temporary `INT_MAX`
and `a` receives `</s>`'s saved count `5`: both counts change. -/
theorem sortByFrequency_counts_not_restored :
    (sortVocabularyByFrequency vocabAS).storage.map (fun e => (e.word, e.cn)) =
      [("</s>", INT_MAX), ("a", 5)] ∧
    wordCountIn vocabAS "</s>" = 5 ∧
    wordCountIn (sortVocabularyByFrequency vocabAS) "</s>" = INT_MAX ∧
    wordCountIn vocabAS "a" = 10 ∧
    wordCountIn (sortVocabularyByFrequency vocabAS) "a" = 5 ∧
    (INT_MAX ≠ (5 : Int) ∧ (5 : Int) ≠ 10) := by
  refine ⟨rfl, rfl, rfl, rfl, rfl, by decide⟩

/-- C6: the claim states that running `SortVocabularyByFrequency` twice (with
no intervening count changes) gives the same order and maps as running it
once.  On `[a:10, b:7, c:6, </s>:9]` the first run leaves the corrupted
counts `[INT_MAX, 10, 7, 9]` (see the stale-index restore), which are *not*
sorted below index 1, so the second run reorders `b` and `c`: the entry
orders `[</s>, a, b, c]` and `[</s>, a, c, b]` differ, as do the rebuilt
maps. -/
theorem sortByFrequency_not_idempotent :
    (sortVocabularyByFrequency vocabACBS).storage.map (·.word) =
      ["</s>", "a", "b", "c"] ∧
    (sortVocabularyByFrequency (sortVocabularyByFrequency vocabACBS)).storage.map (·.word) =
      ["</s>", "a", "c", "b"] ∧
    sortVocabularyByFrequency (sortVocabularyByFrequency vocabACBS) ≠
      sortVocabularyByFrequency vocabACBS := by
  refine ⟨rfl, rfl, by decide⟩

/-! ### Association-map helper lemmas -/

theorem lookupAssoc_insert_self (m : AssocMap) (w : String) (c : Int) :
    lookupAssoc (insertAssoc m w c) w = some c := by
  induction m with
  | nil => simp [insertAssoc, lookupAssoc]
  | cons p m ih =>
    by_cases h : p.1 = w
    · simp [insertAssoc, lookupAssoc, h]
    · simp [insertAssoc, lookupAssoc, h, ih]

theorem lookupAssoc_insert_ne (m : AssocMap) (k w : String) (c : Int) (h : k ≠ w) :
    lookupAssoc (insertAssoc m k c) w = lookupAssoc m w := by
  induction m with
  | nil => simp [insertAssoc, lookupAssoc, h]
  | cons p m ih =>
    by_cases hp : p.1 = k
    · simp [insertAssoc, lookupAssoc, hp, h]
    · simp only [insertAssoc, hp, if_false, lookupAssoc]
      by_cases hw : p.1 = w <;> simp [hw, ih]

theorem lookupAssoc_insert_isSome (m : AssocMap) (k w : String) (c : Int)
    (h : (lookupAssoc m w).isSome) :
    (lookupAssoc (insertAssoc m k c) w).isSome := by
  by_cases hk : k = w
  · subst hk; simp [lookupAssoc_insert_self]
  · rwa [lookupAssoc_insert_ne m k w c hk]

theorem ne_nil_of_lookupAssoc_isSome (m : AssocMap) (w : String)
    (h : (lookupAssoc m w).isSome) : m ≠ [] := by
  intro hm; subst hm; simp [lookupAssoc] at h

theorem swapStep_lookup_ne (eosC maxC : Int) (m : AssocMap) (u w : String)
    (hne : u ≠ w) :
    lookupAssoc (swapStep eosC maxC m u) w = lookupAssoc m w := by
  unfold swapStep
  by_cases h1 : (lookupAssoc m u).getD 0 = eosC
  · rw [if_pos h1]
    exact lookupAssoc_insert_ne m u w maxC hne
  · by_cases h2 : (lookupAssoc m u).getD 0 = maxC
    · rw [if_neg h1, if_pos h2]
      exact lookupAssoc_insert_ne m u w eosC hne
    · rw [if_neg h1, if_neg h2]

theorem swapStep_lookup_self (eosC maxC : Int) (m : AssocMap) (u : String)
    (c : Int) (hc : lookupAssoc m u = some c) :
    lookupAssoc (swapStep eosC maxC m u) u = some (swapVal eosC maxC c) := by
  have hgd : (lookupAssoc m u).getD 0 = c := by rw [hc]; rfl
  unfold swapStep
  rw [hgd]
  by_cases h1 : c = eosC
  · rw [if_pos h1, swapVal, if_pos h1, lookupAssoc_insert_self]
  · by_cases h2 : c = maxC
    · rw [if_neg h1, if_pos h2, swapVal, if_neg h1, if_pos h2,
        lookupAssoc_insert_self]
    · rw [if_neg h1, if_neg h2, swapVal, if_neg h1, if_neg h2, hc]

theorem swapPass_lookup_not_mem (eosC maxC : Int) (words : List String)
    (m : AssocMap) (w : String) (hw : w ∉ words) :
    lookupAssoc (swapPass eosC maxC words m) w = lookupAssoc m w := by
  induction words generalizing m with
  | nil => rfl
  | cons u rest ih =>
    have hne : u ≠ w := by rintro rfl; exact hw (List.mem_cons_self _ _)
    have hw' : w ∉ rest := fun h => hw (List.mem_cons_of_mem _ h)
    show lookupAssoc (swapPass eosC maxC rest (swapStep eosC maxC m u)) w = _
    rw [ih _ hw']
    exact swapStep_lookup_ne eosC maxC m u w hne

theorem swapPass_lookup_mem (eosC maxC : Int) (words : List String)
    (m : AssocMap) (hnd : words.Nodup) (w : String) (hw : w ∈ words) (c : Int)
    (hc : lookupAssoc m w = some c) :
    lookupAssoc (swapPass eosC maxC words m) w = some (swapVal eosC maxC c) := by
  induction words generalizing m with
  | nil => cases hw
  | cons u rest ih =>
    rcases List.nodup_cons.mp hnd with ⟨hu, hnd'⟩
    by_cases huw : u = w
    · subst huw
      show lookupAssoc (swapPass eosC maxC rest (swapStep eosC maxC m u)) u = _
      rw [swapPass_lookup_not_mem eosC maxC rest _ u hu]
      exact swapStep_lookup_self eosC maxC m u c hc
    · have hw' : w ∈ rest := by
        rcases List.mem_cons.mp hw with h | h
        · exact absurd h.symm huw
        · exact h
      have hc' : lookupAssoc (swapStep eosC maxC m u) w = some c := by
        rw [swapStep_lookup_ne eosC maxC m u w huw]; exact hc
      exact ih _ hnd' hw' hc'

/-- C10: the post-processing pass of `ReadClasses` exchanges the two class-id
*values* `eos_class` and `max_class` across all iterated words: every word
whose id equals `eos_class` becomes `max_class`, every word whose id equals
`max_class` becomes `eos_class`, all other ids (and non-iterated words) are
untouched, and when `eos_class = max_class` the pass changes nothing.  The
hypotheses hold at the pass's unique call site: `words` is a `std::set`
(duplicate-free) and every element of `words` is a key of `m_mapWord2Class`. -/
theorem swapPass_exchanges_class_id_values :
    ∀ (eosC maxC : Int) (words : List String) (m : AssocMap),
      words.Nodup →
      (∀ w ∈ words, (lookupAssoc m w).isSome) →
      (∀ w ∈ words, ∀ c, lookupAssoc m w = some c →
        lookupAssoc (swapPass eosC maxC words m) w =
          some (if c = eosC then maxC else if c = maxC then eosC else c)) ∧
      (∀ w, w ∉ words → lookupAssoc (swapPass eosC maxC words m) w = lookupAssoc m w) ∧
      (eosC = maxC →
        ∀ w, lookupAssoc (swapPass eosC maxC words m) w = lookupAssoc m w) := by
  intro eosC maxC words m hnd hsome
  refine ⟨?_, ?_, ?_⟩
  · intro w hw c hc
    exact swapPass_lookup_mem eosC maxC words m hnd w hw c hc
  · intro w hw
    exact swapPass_lookup_not_mem eosC maxC words m w hw
  · rintro rfl w
    by_cases hw : w ∈ words
    · obtain ⟨c, hc⟩ := Option.isSome_iff_exists.mp (hsome w hw)
      rw [swapPass_lookup_mem eosC eosC words m hnd w hw c hc, hc]
      unfold swapVal
      by_cases h : c = eosC <;> simp [h]
    · exact swapPass_lookup_not_mem eosC eosC words m w hw

/-- Witness for C10 at a concrete call: two words, `eos_class = 1`,
`max_class = 7`; the word of class `1` moves to `7`, the word of class `0`
stays. -/
theorem swapPass_exchanges_class_id_values_witness :
    lookupAssoc (swapPass 1 7 ["x", "</s>"] [("x", 0), ("</s>", 1)]) "</s>" = some 7 ∧
    lookupAssoc (swapPass 1 7 ["x", "</s>"] [("x", 0), ("</s>", 1)]) "x" = some 0 := by
  have h := swapPass_exchanges_class_id_values 1 7 ["x", "</s>"]
    [("x", 0), ("</s>", 1)] (by decide) (by decide)
  refine ⟨?_, ?_⟩
  · have := h.1 "</s>" (by decide) 1 (by decide)
    simpa using this
  · have := h.1 "x" (by decide) 0 (by decide)
    simpa using this

theorem readClassesLoop_cons (w : String) (c : Int)
    (rest : List (String × Int)) (st : RCState) (h : w ≠ "<s>") :
    readClassesLoop ((w, c) :: rest) st = readClassesLoop rest (rcStep st w c) := by
  simp only [readClassesLoop, rcStep, if_neg h]

theorem readClassesLoop_snd_true (input : List (String × Int)) (st : RCState)
    (h : ∀ p ∈ input, p.1 ≠ "<s>") : (readClassesLoop input st).2 = true := by
  induction input generalizing st with
  | nil => rfl
  | cons p rest ih =>
    rw [show p = (p.1, p.2) from rfl,
      readClassesLoop_cons p.1 p.2 rest st (h p (List.mem_cons_self _ _))]
    exact ih _ (fun q hq => h q (List.mem_cons_of_mem _ hq))

theorem readClassesLoop_stops_at_reserved (pre : List (String × Int)) (c : Int)
    (post : List (String × Int)) (st : RCState)
    (h : ∀ p ∈ pre, p.1 ≠ "<s>") :
    readClassesLoop (pre ++ ("<s>", c) :: post) st =
      ((readClassesLoop pre st).1, false) := by
  induction pre generalizing st with
  | nil => rfl
  | cons p rest ih =>
    have hp : p.1 ≠ "<s>" := h p (List.mem_cons_self _ _)
    rw [List.cons_append, show p = (p.1, p.2) from rfl,
      readClassesLoop_cons p.1 p.2 _ st hp,
      readClassesLoop_cons p.1 p.2 rest st hp]
    exact ih _ (fun q hq => h q (List.mem_cons_of_mem _ hq))

theorem readClassesLoop_map (input : List (String × Int)) (st : RCState)
    (h : ∀ p ∈ input, p.1 ≠ "<s>") :
    ((readClassesLoop input st).1).map =
      input.foldl (fun m p => insertAssoc m p.1 p.2) st.map := by
  induction input generalizing st with
  | nil => rfl
  | cons p rest ih =>
    rw [show p = (p.1, p.2) from rfl,
      readClassesLoop_cons p.1 p.2 rest st (h p (List.mem_cons_self _ _)),
      ih _ (fun q hq => h q (List.mem_cons_of_mem _ hq))]
    rfl

theorem readClassesLoop_eos_of_no_eos (input : List (String × Int))
    (st : RCState) (h : ∀ p ∈ input, p.1 ≠ "</s>") :
    ((readClassesLoop input st).1).eosClass = st.eosClass := by
  induction input generalizing st with
  | nil => rfl
  | cons p rest ih =>
    by_cases hs : p.1 = "<s>"
    · simp only [readClassesLoop]
      rw [show p = (p.1, p.2) from rfl]
      simp only [hs, if_pos]
    · rw [show p = (p.1, p.2) from rfl, readClassesLoop_cons p.1 p.2 rest st hs,
        ih _ (fun q hq => h q (List.mem_cons_of_mem _ hq))]
      simp only [rcStep, if_neg (h p (List.mem_cons_self _ _))]

theorem readClassesLoop_hasEos_preserved (input : List (String × Int))
    (st : RCState) (h : ∀ p ∈ input, p.1 ≠ "<s>")
    (hpos : ∀ p ∈ input, 0 ≤ p.2) (he : rcHasEos st) :
    rcHasEos (readClassesLoop input st).1 := by
  induction input generalizing st with
  | nil => exact he
  | cons p rest ih =>
    rw [show p = (p.1, p.2) from rfl,
      readClassesLoop_cons p.1 p.2 rest st (h p (List.mem_cons_self _ _))]
    refine ih _ (fun q hq => h q (List.mem_cons_of_mem _ hq))
      (fun q hq => hpos q (List.mem_cons_of_mem _ hq)) ?_
    obtain ⟨c, hc, hec, hcpos⟩ := he
    by_cases hw : p.1 = "</s>"
    · exact ⟨p.2, by simp [rcStep, hw, lookupAssoc_insert_self],
        by simp [rcStep, hw], hpos p (List.mem_cons_self _ _)⟩
    · exact ⟨c, by rw [show (rcStep st p.1 p.2).map = insertAssoc st.map p.1 p.2 from rfl,
        lookupAssoc_insert_ne st.map p.1 "</s>" p.2 hw]; exact hc,
        by simp [rcStep, hw, hec], hcpos⟩

theorem readClassesLoop_hasEos_of_mem (input : List (String × Int))
    (st : RCState) (h : ∀ p ∈ input, p.1 ≠ "<s>")
    (hpos : ∀ p ∈ input, 0 ≤ p.2) (he : ∃ p ∈ input, p.1 = "</s>") :
    rcHasEos (readClassesLoop input st).1 := by
  induction input generalizing st with
  | nil => obtain ⟨p, hp, _⟩ := he; cases hp
  | cons p rest ih =>
    rw [show p = (p.1, p.2) from rfl,
      readClassesLoop_cons p.1 p.2 rest st (h p (List.mem_cons_self _ _))]
    by_cases hw : p.1 = "</s>"
    · refine readClassesLoop_hasEos_preserved rest _
        (fun q hq => h q (List.mem_cons_of_mem _ hq))
        (fun q hq => hpos q (List.mem_cons_of_mem _ hq))
        ⟨p.2, by simp [rcStep, hw, lookupAssoc_insert_self],
          by simp [rcStep, hw], hpos p (List.mem_cons_self _ _)⟩
    · have he' : ∃ q ∈ rest, q.1 = "</s>" := by
        obtain ⟨q, hq, hq1⟩ := he
        rcases List.mem_cons.mp hq with rfl | hq'
        · exact absurd hq1 hw
        · exact ⟨q, hq', hq1⟩
      exact ih _ (fun q hq => h q (List.mem_cons_of_mem _ hq))
        (fun q hq => hpos q (List.mem_cons_of_mem _ hq)) he'

theorem readClassesLoop_maxClass (input : List (String × Int)) (st : RCState)
    (h : ∀ p ∈ input, p.1 ≠ "<s>") :
    ((readClassesLoop input st).1).maxClass =
      input.foldl (fun m p => if m < p.2 then p.2 else m) st.maxClass := by
  induction input generalizing st with
  | nil => rfl
  | cons p rest ih =>
    rw [show p = (p.1, p.2) from rfl,
      readClassesLoop_cons p.1 p.2 rest st (h p (List.mem_cons_self _ _)),
      ih _ (fun q hq => h q (List.mem_cons_of_mem _ hq))]
    rfl

theorem mem_insertStrSet_self (s : List String) (w : String) :
    w ∈ insertStrSet s w := by
  unfold insertStrSet
  by_cases h : w ∈ s
  · rw [if_pos h]; exact h
  · rw [if_neg h]; exact List.mem_append_right _ (List.mem_singleton.mpr rfl)

theorem mem_insertStrSet_of_mem (s : List String) (w u : String) (h : u ∈ s) :
    u ∈ insertStrSet s w := by
  unfold insertStrSet
  by_cases hw : w ∈ s
  · rw [if_pos hw]; exact h
  · rw [if_neg hw]; exact List.mem_append_left _ h

theorem nodup_insertStrSet (s : List String) (w : String) (h : s.Nodup) :
    (insertStrSet s w).Nodup := by
  unfold insertStrSet
  by_cases hw : w ∈ s
  · rw [if_pos hw]; exact h
  · rw [if_neg hw]
    exact List.Nodup.append h (List.nodup_singleton w)
      (by simpa [List.disjoint_singleton] using hw)

theorem readClassesLoop_words_nodup (input : List (String × Int))
    (st : RCState) (h : ∀ p ∈ input, p.1 ≠ "<s>") (hnd : st.words.Nodup) :
    ((readClassesLoop input st).1).words.Nodup := by
  induction input generalizing st with
  | nil => exact hnd
  | cons p rest ih =>
    rw [show p = (p.1, p.2) from rfl,
      readClassesLoop_cons p.1 p.2 rest st (h p (List.mem_cons_self _ _))]
    exact ih _ (fun q hq => h q (List.mem_cons_of_mem _ hq))
      (nodup_insertStrSet st.words p.1 hnd)

theorem readClassesLoop_words_sound (input : List (String × Int))
    (st : RCState) (h : ∀ p ∈ input, p.1 ≠ "<s>")
    (hsou : ∀ w ∈ st.words, (lookupAssoc st.map w).isSome) :
    ∀ w ∈ ((readClassesLoop input st).1).words,
      (lookupAssoc ((readClassesLoop input st).1).map w).isSome := by
  induction input generalizing st with
  | nil => exact hsou
  | cons p rest ih =>
    rw [show p = (p.1, p.2) from rfl,
      readClassesLoop_cons p.1 p.2 rest st (h p (List.mem_cons_self _ _))]
    refine ih _ (fun q hq => h q (List.mem_cons_of_mem _ hq)) ?_
    intro w hw
    show (lookupAssoc (insertAssoc st.map p.1 p.2) w).isSome
    by_cases hwp : p.1 = w
    · subst hwp; simp [lookupAssoc_insert_self]
    · rw [lookupAssoc_insert_ne st.map p.1 w p.2 hwp]
      refine hsou w ?_
      have hw : w ∈ insertStrSet st.words p.1 := hw
      unfold insertStrSet at hw
      by_cases hm : p.1 ∈ st.words
      · rwa [if_pos hm] at hw
      · rw [if_neg hm] at hw
        rcases List.mem_append.mp hw with h' | h'
        · exact h'
        · exact absurd (List.mem_singleton.mp h').symm hwp

theorem readClassesLoop_eos_mem_words (input : List (String × Int))
    (st : RCState) (h : ∀ p ∈ input, p.1 ≠ "<s>")
    (he : "</s>" ∈ st.words ∨ ∃ p ∈ input, p.1 = "</s>") :
    "</s>" ∈ ((readClassesLoop input st).1).words := by
  induction input generalizing st with
  | nil =>
    rcases he with he | ⟨p, hp, _⟩
    · exact he
    · cases hp
  | cons p rest ih =>
    rw [show p = (p.1, p.2) from rfl,
      readClassesLoop_cons p.1 p.2 rest st (h p (List.mem_cons_self _ _))]
    refine ih _ (fun q hq => h q (List.mem_cons_of_mem _ hq)) ?_
    rcases he with he | ⟨q, hq, hq1⟩
    · exact Or.inl (mem_insertStrSet_of_mem st.words p.1 "</s>" he)
    · rcases List.mem_cons.mp hq with heq | hq'
      · refine Or.inl ?_
        have hps : p.1 = "</s>" := by rw [← heq]; exact hq1
        show "</s>" ∈ insertStrSet st.words p.1
        rw [hps]
        exact mem_insertStrSet_self st.words "</s>"
      · exact Or.inr ⟨q, hq', hq1⟩

theorem foldl_runningMax_spec (l : List (String × Int)) :
    ∀ acc : Int,
      acc ≤ l.foldl (fun m p => if m < p.2 then p.2 else m) acc ∧
      (∀ p ∈ l, p.2 ≤ l.foldl (fun m p => if m < p.2 then p.2 else m) acc) ∧
      (l.foldl (fun m p => if m < p.2 then p.2 else m) acc = acc ∨
        ∃ p ∈ l, l.foldl (fun m p => if m < p.2 then p.2 else m) acc = p.2) := by
  induction l with
  | nil => exact fun acc => ⟨le_refl _, fun p hp => absurd hp (List.not_mem_nil p), Or.inl rfl⟩
  | cons q rest ih =>
    intro acc
    have step : (if acc < q.2 then q.2 else acc) = acc ∨
        (if acc < q.2 then q.2 else acc) = q.2 := by
      by_cases h : acc < q.2 <;> simp [h]
    obtain ⟨ihle, ihub, ihmem⟩ := ih (if acc < q.2 then q.2 else acc)
    refine ⟨?_, ?_, ?_⟩
    · refine le_trans ?_ ihle
      by_cases h : acc < q.2
      · rw [if_pos h]; exact le_of_lt h
      · rw [if_neg h]
    · intro p hp
      rcases List.mem_cons.mp hp with heq | hp'
      · rw [heq]
        refine le_trans ?_ ihle
        by_cases h : acc < q.2
        · rw [if_pos h]
        · rw [if_neg h]; exact le_of_not_lt h
      · exact ihub p hp'
    · rcases ihmem with hm | ⟨p, hp, hpe⟩
      · rcases step with hs | hs
        · exact Or.inl (by rw [List.foldl_cons, hm, hs])
        · exact Or.inr ⟨q, List.mem_cons_self _ _, by rw [List.foldl_cons, hm, hs]⟩
      · exact Or.inr ⟨p, List.mem_cons_of_mem _ hp, hpe⟩

theorem readClassesLoop_snd_false_of_mem (input : List (String × Int))
    (st : RCState) (h : ∃ p ∈ input, p.1 = "<s>") :
    (readClassesLoop input st).2 = false := by
  induction input generalizing st with
  | nil => obtain ⟨p, hp, _⟩ := h; cases hp
  | cons p rest ih =>
    by_cases hs : p.1 = "<s>"
    · simp only [readClassesLoop]
      rw [show p = (p.1, p.2) from rfl]
      simp only [hs, if_pos]
    · rw [show p = (p.1, p.2) from rfl, readClassesLoop_cons p.1 p.2 rest st hs]
      refine ih _ ?_
      obtain ⟨q, hq, hq1⟩ := h
      rcases List.mem_cons.mp hq with heq | hq'
      · exact absurd (by rw [← heq]; exact hq1) hs
      · exact ⟨q, hq', hq1⟩

/-- C4: validation behaviour of `ReadClasses` on a fresh vocabulary.  A file
containing the reserved start token `"<s>"` fails; a file with no `"</s>"`
fails; the empty file fails; a well-formed file (no `"<s>"`, `"</s>"`
present, class ids non-negative as the format prescribes) succeeds, and the
final class of `"</s>"` is the maximum class id present in the file. -/
theorem readClasses_validation_and_eos_class :
    ∀ input : List (String × Int),
      ((∃ p ∈ input, p.1 = "<s>") → (readClasses input [] []).1 = false) ∧
      ((∀ p ∈ input, p.1 ≠ "</s>") → (readClasses input [] []).1 = false) ∧
      ((readClasses ([] : List (String × Int)) [] []).1 = false) ∧
      ((∀ p ∈ input, p.1 ≠ "<s>") → (∃ p ∈ input, p.1 = "</s>") →
        (∀ p ∈ input, 0 ≤ p.2) →
        (readClasses input [] []).1 = true ∧
        lookupAssoc (readClasses input [] []).2 "</s>" = some (fileMaxClass input) ∧
        (∃ p ∈ input, p.2 = fileMaxClass input) ∧
        (∀ p ∈ input, p.2 ≤ fileMaxClass input)) := by
  intro input
  refine ⟨?_, ?_, by decide, ?_⟩
  · intro h
    have hsnd := readClassesLoop_snd_false_of_mem input (rcInit [] []) h
    simp [readClasses, hsnd]
  · intro h
    by_cases hsnd : (readClassesLoop input (rcInit [] [])).2 = false
    · simp [readClasses, hsnd]
    · have heos := readClassesLoop_eos_of_no_eos input (rcInit [] []) h
      simp only [readClasses]
      rw [if_neg hsnd, if_pos (by rw [heos]; rfl)]
  · intro h1 h2 h3
    have hsnd := readClassesLoop_snd_true input (rcInit [] []) h1
    obtain ⟨c, hc, hec, hcpos⟩ :=
      readClassesLoop_hasEos_of_mem input (rcInit [] []) h1 h3 h2
    have heos : ¬ ((readClassesLoop input (rcInit [] [])).1.eosClass = -1) := by
      rw [hec]; omega
    have hmap : ¬ ((readClassesLoop input (rcInit [] [])).1.map.length = 0) := by
      intro hlen
      have hne := ne_nil_of_lookupAssoc_isSome _ "</s>" (by rw [hc]; rfl)
      exact hne (List.length_eq_zero.mp hlen)
    have hnd := readClassesLoop_words_nodup input (rcInit [] []) h1 List.nodup_nil
    have hmem := readClassesLoop_eos_mem_words input (rcInit [] []) h1 (Or.inr h2)
    have hswap := swapPass_lookup_mem
      ((readClassesLoop input (rcInit [] [])).1).eosClass
      ((readClassesLoop input (rcInit [] [])).1).maxClass
      ((readClassesLoop input (rcInit [] [])).1).words
      ((readClassesLoop input (rcInit [] [])).1).map hnd "</s>" hmem c hc
    have hmax : ((readClassesLoop input (rcInit [] [])).1).maxClass =
        fileMaxClass input :=
      readClassesLoop_maxClass input (rcInit [] []) h1
    obtain ⟨hini, hub, hmm⟩ := foldl_runningMax_spec input (-1)
    have hfm : ∃ p ∈ input, p.2 = fileMaxClass input := by
      rcases hmm with hm | ⟨p, hp, hpe⟩
      · exfalso
        obtain ⟨q, hq, hq1⟩ := h2
        have := hub q hq
        have hq2 := h3 q hq
        rw [hm] at this
        omega
      · exact ⟨p, hp, hpe.symm⟩
    have hsnd' : ¬ ((readClassesLoop input (rcInit [] [])).2 = false) := by
      simp [hsnd]
    have hrc : readClasses input [] [] =
        (true, swapPass ((readClassesLoop input (rcInit [] [])).1).eosClass
          ((readClassesLoop input (rcInit [] [])).1).maxClass
          ((readClassesLoop input (rcInit [] [])).1).words
          ((readClassesLoop input (rcInit [] [])).1).map) := by
      simp only [readClasses]
      rw [if_neg hsnd', if_neg heos, if_neg hmap]
    refine ⟨by rw [hrc], ?_, hfm, hub⟩
    rw [hrc]
    show lookupAssoc (swapPass _ _ _ _) "</s>" = some (fileMaxClass input)
    rw [hswap, hec, hmax]
    simp [swapVal]

/-- Witness for C4 at a concrete well-formed file. -/
theorem readClasses_validation_and_eos_class_witness :
    (readClasses [("the", 0), ("cat", 1), ("</s>", 2)] [] []).1 = true ∧
    lookupAssoc (readClasses [("the", 0), ("cat", 1), ("</s>", 2)] [] []).2 "</s>" =
      some (fileMaxClass [("the", 0), ("cat", 1), ("</s>", 2)]) ∧
    (∃ p ∈ [("the", 0), ("cat", 1), ("</s>", 2)],
      p.2 = fileMaxClass [("the", 0), ("cat", 1), ("</s>", 2)]) ∧
    (∀ p ∈ [("the", 0), ("cat", 1), ("</s>", 2)],
      p.2 ≤ fileMaxClass [("the", 0), ("cat", 1), ("</s>", 2)]) :=
  (readClasses_validation_and_eos_class [("the", 0), ("cat", 1), ("</s>", 2)]).2.2.2
    (by decide) (by decide) (by decide)

/-- C9 counterexample: `ReadClasses` is not atomic on failure.  On the file
`[(a,1), (<s>,2)]`, starting from an empty word-to-class map, it returns the
failure flag but the member map already contains the entry `(a,1)` read
before the reserved token was detected — the state is not left unchanged. -/
theorem readClasses_partial_state_on_failure :
    readClasses [("a", 1), ("<s>", 2)] [] [] = (false, [("a", 1)]) ∧
    ([("a", 1)] : AssocMap) ≠ [] := by
  refine ⟨by decide, by decide⟩

/-- C9 (amended): every failure of `ReadClasses` is surfaced as the distinct
error result `false`, but the word-to-class map is left *partially
populated*: on hitting `"<s>"` it holds exactly the entries read before that
pair, and when `"</s>"` is absent it holds every entry of the file. -/
theorem readClasses_failure_surfaced_with_partial_state :
    (∀ (pre post : List (String × Int)) (c : Int) (m0 : AssocMap)
        (cls0 : List Int),
      (∀ p ∈ pre, p.1 ≠ "<s>") →
      readClasses (pre ++ ("<s>", c) :: post) m0 cls0 =
        (false, pre.foldl (fun m p => insertAssoc m p.1 p.2) m0)) ∧
    (∀ (input : List (String × Int)) (m0 : AssocMap) (cls0 : List Int),
      (∀ p ∈ input, p.1 ≠ "<s>") → (∀ p ∈ input, p.1 ≠ "</s>") →
      readClasses input m0 cls0 =
        (false, input.foldl (fun m p => insertAssoc m p.1 p.2) m0)) := by
  constructor
  · intro pre post c m0 cls0 h
    have hstop := readClassesLoop_stops_at_reserved pre c post (rcInit m0 cls0) h
    have hmap := readClassesLoop_map pre (rcInit m0 cls0) h
    simp only [readClasses, hstop]
    rw [hmap]
    rfl
  · intro input m0 cls0 h1 h2
    have hsnd := readClassesLoop_snd_true input (rcInit m0 cls0) h1
    have heos := readClassesLoop_eos_of_no_eos input (rcInit m0 cls0) h2
    have hmap := readClassesLoop_map input (rcInit m0 cls0) h1
    have hsnd' : ¬ ((readClassesLoop input (rcInit m0 cls0)).2 = false) := by
      simp [hsnd]
    simp only [readClasses]
    rw [if_neg hsnd', if_pos (by rw [heos]; rfl), hmap]
    rfl

/-- Witness for the amended C9 at concrete failing files. -/
theorem readClasses_failure_surfaced_with_partial_state_witness :
    readClasses [("x", 4), ("<s>", 0)] [] [] = (false, [("x", 4)]) ∧
    readClasses [("b", 3)] [] [] = (false, [("b", 3)]) :=
  ⟨readClasses_failure_surfaced_with_partial_state.1 [("x", 4)] [] 0 [] []
      (by decide),
    readClasses_failure_surfaced_with_partial_state.2 [("b", 3)] [] []
      (by decide) (by decide)⟩

theorem intAt_cons_zero (x : Int) (xs : List Int) : intAt (x :: xs) 0 = x := rfl

theorem intAt_cons_succ (x : Int) (xs : List Int) (n : ℕ) :
    intAt (x :: xs) (n + 1) = intAt xs n := rfl

theorem compactAux_length (last cnum : Int) (l : List Int) :
    (compactAux last cnum l).length = l.length := by
  induction l generalizing last cnum with
  | nil => rfl
  | cons x xs ih =>
    unfold compactAux
    by_cases h : x ≠ last
    · rw [if_pos h]; simp [ih]
    · rw [if_neg h]; simp [ih]

theorem compactAux_head (last cnum x : Int) (xs : List Int) :
    intAt (compactAux last cnum (x :: xs)) 0 =
      (if x ≠ last then cnum + 1 else cnum) := by
  unfold compactAux
  by_cases h : x ≠ last
  · rw [if_pos h, if_pos h]; rfl
  · rw [if_neg h, if_neg h]; rfl

theorem compactAux_step (l : List Int) :
    ∀ (last cnum : Int) (i : ℕ), i + 1 < l.length →
      intAt (compactAux last cnum l) (i + 1) =
        (if intAt l (i + 1) ≠ intAt l i then intAt (compactAux last cnum l) i + 1
         else intAt (compactAux last cnum l) i) := by
  induction l with
  | nil => intro _ _ i h; cases h
  | cons x xs ih =>
    intro last cnum i hi
    match i, hi with
    | 0, hi =>
      obtain ⟨y, ys, rfl⟩ : ∃ y ys, xs = y :: ys := by
        cases xs with
        | nil => simp at hi
        | cons y ys => exact ⟨y, ys, rfl⟩
      unfold compactAux
      by_cases h : x ≠ last
      · rw [if_pos h]
        rw [intAt_cons_succ, intAt_cons_zero, intAt_cons_succ, intAt_cons_zero,
          intAt_cons_zero, compactAux_head]
      · rw [if_neg h]
        have hx : x = last := not_ne_iff.mp h
        rw [intAt_cons_succ, intAt_cons_zero, intAt_cons_succ, intAt_cons_zero,
          intAt_cons_zero, compactAux_head, ← hx]
    | i + 1, hi =>
      have hi' : i + 1 < xs.length := by simpa using hi
      unfold compactAux
      by_cases h : x ≠ last
      · rw [if_pos h]
        exact ih x (cnum + 1) i hi'
      · rw [if_neg h]
        exact ih last cnum i hi'

theorem compactClasses_zero (l : List Int) (h : 0 < l.length) :
    intAt (compactClasses l) 0 = (if intAt l 0 ≠ -1 then 0 else -1) := by
  obtain ⟨x, xs, rfl⟩ : ∃ x xs, l = x :: xs := by
    cases l with
    | nil => cases h
    | cons x xs => exact ⟨x, xs, rfl⟩
  rw [show compactClasses (x :: xs) = compactAux (-1) (-1) (x :: xs) from rfl,
    compactAux_head, intAt_cons_zero]
  by_cases hx : x ≠ -1
  · rw [if_pos hx, if_pos hx]; norm_num
  · rw [if_neg hx, if_neg hx]

/-- C7 counterexample: on the one-entry storage whose pre-compaction class id
is `-1` (the loop's sentinel initial value of `last`), the compaction leaves
the id `-1`: the final ids are not `0..k-1` (the claim requires the single
final id to be `0`), because the first entry is mistaken for a continuation
of a phantom preceding block. -/
theorem compactClasses_sentinel_collision :
    compactClasses [-1] = [-1] ∧ intAt (compactClasses [-1]) 0 < 0 := by
  refine ⟨rfl, by decide⟩

/-- C7 (amended): under the claim's contiguity precondition *and* the
additional precondition — forced by the counterexample — that the first
entry's pre-compaction id is not the sentinel `-1`, the compaction loop of
`AssignWordsToClasses` (external mode) is a dense renumbering: the first
final id is `0`; each subsequent final id increments exactly when the
pre-compaction id differs from the previous entry's; final ids are
non-decreasing, non-negative, and attain every value from `0` up to the last
final id; and two entries share a final id iff all pre-compaction ids between
them are equal (they sit in the same contiguous block). -/
theorem assignWords_external_compaction_dense_renumbering :
    ∀ l : List Int,
      (∀ j, j < l.length → ∀ i, i ≤ j → ∀ t, t ≤ j → i ≤ t →
        intAt l i = intAt l j → intAt l t = intAt l i) →
      (0 < l.length → intAt l 0 ≠ -1) →
      (0 < l.length → intAt (compactClasses l) 0 = 0) ∧
      (∀ i, i + 1 < l.length →
        intAt (compactClasses l) (i + 1) =
          (if intAt l (i + 1) ≠ intAt l i then intAt (compactClasses l) i + 1
           else intAt (compactClasses l) i)) ∧
      (∀ i j, i ≤ j → j < l.length →
        intAt (compactClasses l) i ≤ intAt (compactClasses l) j) ∧
      (∀ i, i < l.length → 0 ≤ intAt (compactClasses l) i) ∧
      (∀ v : Int, 0 < l.length → 0 ≤ v →
        v ≤ intAt (compactClasses l) (l.length - 1) →
        ∃ i, i < l.length ∧ intAt (compactClasses l) i = v) ∧
      (∀ i j, i ≤ j → j < l.length →
        (intAt (compactClasses l) i = intAt (compactClasses l) j ↔
          ∀ t, i ≤ t → t ≤ j → intAt l t = intAt l i)) := by
  intro l _hcontig hhead
  have hz : 0 < l.length → intAt (compactClasses l) 0 = 0 := by
    intro h0
    rw [compactClasses_zero l h0, if_pos (hhead h0)]
  have hstep : ∀ i, i + 1 < l.length →
      intAt (compactClasses l) (i + 1) =
        (if intAt l (i + 1) ≠ intAt l i then intAt (compactClasses l) i + 1
         else intAt (compactClasses l) i) :=
    fun i hi => compactAux_step l (-1) (-1) i hi
  have hstep_ub : ∀ i, i + 1 < l.length →
      intAt (compactClasses l) i ≤ intAt (compactClasses l) (i + 1) ∧
      intAt (compactClasses l) (i + 1) ≤ intAt (compactClasses l) i + 1 := by
    intro i hi
    rw [hstep i hi]
    by_cases h : intAt l (i + 1) ≠ intAt l i
    · rw [if_pos h]; omega
    · rw [if_neg h]; omega
  have hmono : ∀ i j, i ≤ j → j < l.length →
      intAt (compactClasses l) i ≤ intAt (compactClasses l) j := by
    intro i j hij hj
    induction j with
    | zero =>
      have : i = 0 := Nat.le_zero.mp hij
      rw [this]
    | succ j ihj =>
      by_cases hij' : i = j + 1
      · rw [hij']
      · have h1 : i ≤ j := by omega
        have h2 : j < l.length := by omega
        exact le_trans (ihj h1 h2) (hstep_ub j hj).1
  have hnn : ∀ i, i < l.length → 0 ≤ intAt (compactClasses l) i := by
    intro i hi
    have h0 : 0 < l.length := lt_of_le_of_lt (Nat.zero_le i) hi
    have := hmono 0 i (Nat.zero_le i) hi
    rw [hz h0] at this
    exact this
  have hsurj : ∀ j, j < l.length → ∀ v : Int, 0 ≤ v →
      v ≤ intAt (compactClasses l) j →
      ∃ i, i ≤ j ∧ intAt (compactClasses l) i = v := by
    intro j
    induction j with
    | zero =>
      intro hj v hv hvle
      rw [hz hj] at hvle
      exact ⟨0, le_refl 0, by rw [hz hj]; omega⟩
    | succ j ihj =>
      intro hj v hv hvle
      by_cases hcase : v ≤ intAt (compactClasses l) j
      · obtain ⟨i, hi, hiv⟩ := ihj (by omega) v hv hcase
        exact ⟨i, by omega, hiv⟩
      · refine ⟨j + 1, le_refl _, ?_⟩
        have := (hstep_ub j hj).2
        omega
  refine ⟨hz, hstep, hmono, hnn, ?_, ?_⟩
  · intro v h0 hv hvle
    obtain ⟨i, hi, hiv⟩ := hsurj (l.length - 1) (by omega) v hv hvle
    exact ⟨i, by omega, hiv⟩
  · intro i j hij hj
    constructor
    · intro hceq
      have hconst : ∀ t, i ≤ t → t ≤ j → intAt (compactClasses l) t =
          intAt (compactClasses l) i := by
        intro t h1 h2
        have ha := hmono i t h1 (by omega)
        have hb := hmono t j h2 hj
        omega
      intro t h1 h2
      induction t with
      | zero =>
        have : i = 0 := Nat.le_zero.mp h1
        rw [this]
      | succ t iht =>
        by_cases hit : i = t + 1
        · rw [hit]
        · have h1' : i ≤ t := by omega
          have h2' : t ≤ j := by omega
          have hlt : intAt l t = intAt l i := iht h1' h2'
          have hct := hconst t h1' h2'
          have hct1 := hconst (t + 1) (by omega) h2
          have hs := hstep t (by omega)
          by_cases hne : intAt l (t + 1) ≠ intAt l t
          · rw [if_pos hne] at hs
            omega
          · rw [not_ne_iff.mp hne, hlt]
    · intro hleq
      have key : ∀ m, i ≤ m → m ≤ j → intAt (compactClasses l) m =
          intAt (compactClasses l) i := by
        intro m h1 h2
        induction m with
        | zero =>
          have : i = 0 := Nat.le_zero.mp h1
          rw [this]
        | succ m ihm =>
          by_cases him : i = m + 1
          · rw [him]
          · have h1' : i ≤ m := by omega
            have h2' : m ≤ j := by omega
            have hcm := ihm h1' h2'
            have hs := hstep m (by omega)
            have he1 : intAt l (m + 1) = intAt l i := hleq (m + 1) (by omega) h2
            have he2 : intAt l m = intAt l i := hleq m h1' h2'
            have hne : ¬ (intAt l (m + 1) ≠ intAt l m) := by
              rw [he1, he2]; exact not_ne_iff.mpr rfl
            rw [if_neg hne] at hs
            rw [hs, hcm]
      exact (key j hij (le_refl j)).symm

/-- Witness for the amended C7 on a concrete contiguous id list. -/
theorem assignWords_external_compaction_dense_renumbering_witness :
    (0 < ([3, 3, 7, 2, 2] : List Int).length →
      intAt (compactClasses [3, 3, 7, 2, 2]) 0 = 0) ∧
    (∀ i, i + 1 < ([3, 3, 7, 2, 2] : List Int).length →
      intAt (compactClasses [3, 3, 7, 2, 2]) (i + 1) =
        (if intAt [3, 3, 7, 2, 2] (i + 1) ≠ intAt [3, 3, 7, 2, 2] i then
          intAt (compactClasses [3, 3, 7, 2, 2]) i + 1
         else intAt (compactClasses [3, 3, 7, 2, 2]) i)) ∧
    (∀ i j, i ≤ j → j < ([3, 3, 7, 2, 2] : List Int).length →
      intAt (compactClasses [3, 3, 7, 2, 2]) i ≤
        intAt (compactClasses [3, 3, 7, 2, 2]) j) ∧
    (∀ i, i < ([3, 3, 7, 2, 2] : List Int).length →
      0 ≤ intAt (compactClasses [3, 3, 7, 2, 2]) i) ∧
    (∀ v : Int, 0 < ([3, 3, 7, 2, 2] : List Int).length → 0 ≤ v →
      v ≤ intAt (compactClasses [3, 3, 7, 2, 2])
        (([3, 3, 7, 2, 2] : List Int).length - 1) →
      ∃ i, i < ([3, 3, 7, 2, 2] : List Int).length ∧
        intAt (compactClasses [3, 3, 7, 2, 2]) i = v) ∧
    (∀ i j, i ≤ j → j < ([3, 3, 7, 2, 2] : List Int).length →
      (intAt (compactClasses [3, 3, 7, 2, 2]) i =
          intAt (compactClasses [3, 3, 7, 2, 2]) j ↔
        ∀ t, i ≤ t → t ≤ j → intAt [3, 3, 7, 2, 2] t = intAt [3, 3, 7, 2, 2] i)) :=
  assignWords_external_compaction_dense_renumbering [3, 3, 7, 2, 2]
    (by decide) (by decide)

/-! ### Frequency-mass class assignment (C3, C5) -/

theorem freqAssignAux_spec (fsqrt : ℚ → ℚ) (b dd : ℚ) (k : ℕ) (hk : 1 ≤ k) :
    ∀ (es : List VocabWord) (df : ℚ) (a : ℕ), a ≤ k - 1 →
      (freqAssignAux fsqrt b dd k df a es).1.length = es.length ∧
      (freqAssignAux fsqrt b dd k df a es).2 ≤ k - 1 ∧
      (∀ e ∈ (freqAssignAux fsqrt b dd k df a es).1,
        (a : Int) ≤ e.classIndex ∧ 0 ≤ e.classIndex ∧
          e.classIndex ≤ (k : Int) - 1) ∧
      (freqAssignAux fsqrt b dd k df a es).1.map (·.cn) = es.map (·.cn) ∧
      (freqAssignAux fsqrt b dd k df a es).1.map (·.word) = es.map (·.word) := by
  intro es
  induction es with
  | nil => intro df a ha; exact ⟨rfl, ha, fun e he => absurd he (List.not_mem_nil e), rfl, rfl⟩
  | cons e es ih =>
    intro df a ha
    have hbr : (if a < k - 1 then a + 1 else a) ≤ k - 1 := by
      by_cases h : a < k - 1
      · rw [if_pos h]; omega
      · rw [if_neg h]; exact ha
    have ha1 : (if ((a : ℚ) + 1) / (k : ℚ) <
        (if 1 < df + fsqrt ((e.cn : ℚ) / b) / dd then 1
         else df + fsqrt ((e.cn : ℚ) / b) / dd) then
        (if a < k - 1 then a + 1 else a) else a) ≤ k - 1 := by
      by_cases h : ((a : ℚ) + 1) / (k : ℚ) <
          (if 1 < df + fsqrt ((e.cn : ℚ) / b) / dd then 1
           else df + fsqrt ((e.cn : ℚ) / b) / dd)
      · rw [if_pos h]; exact hbr
      · rw [if_neg h]; exact ha
    have hle : a ≤ (if ((a : ℚ) + 1) / (k : ℚ) <
        (if 1 < df + fsqrt ((e.cn : ℚ) / b) / dd then 1
         else df + fsqrt ((e.cn : ℚ) / b) / dd) then
        (if a < k - 1 then a + 1 else a) else a) := by
      by_cases h : ((a : ℚ) + 1) / (k : ℚ) <
          (if 1 < df + fsqrt ((e.cn : ℚ) / b) / dd then 1
           else df + fsqrt ((e.cn : ℚ) / b) / dd)
      · rw [if_pos h]
        by_cases h2 : a < k - 1
        · rw [if_pos h2]; omega
        · rw [if_neg h2]
      · rw [if_neg h]
    obtain ⟨ihlen, ihptr, ihrange, ihcn, ihword⟩ := ih _ _ ha1
    refine ⟨?_, ?_, ?_, ?_, ?_⟩
    · simpa [freqAssignAux] using ihlen
    · simpa [freqAssignAux] using ihptr
    · intro e1 he1
      simp only [freqAssignAux, List.mem_cons] at he1
      rcases he1 with rfl | he1
      · exact ⟨le_refl _, Int.natCast_nonneg a,
          show ((a : ℕ) : Int) ≤ (k : Int) - 1 by omega⟩
      · obtain ⟨h1, h2, h3⟩ := ihrange e1 he1
        exact ⟨le_trans (by exact_mod_cast hle) h1, h2, h3⟩
    · simpa [freqAssignAux] using ihcn
    · simpa [freqAssignAux] using ihword

/-- C3: structural correctness of the frequency-mass-balancing mode of
`AssignWordsToClasses`, proved for *every* function `fsqrt` standing in for
the double-precision `sqrt` (the stated properties never inspect the branch
condition's truth value, so floating-point rounding — or even `NaN`
comparisons — cannot affect them).  For any vocabulary and `numClasses ≥ 1`:
every entry receives a class id in `[0, numClasses−1]`; the class pointer
ends `≤ numClasses−1` (it saturates, over-filling the last class); counts
are untouched; every index belongs to exactly one class of `m_classWords`;
and the sum over classes of the member counts equals the total count. -/
theorem assignWords_frequency_mode_partition :
    ∀ (fsqrt : ℚ → ℚ) (k : ℕ) (v : Vocabulary), 1 ≤ k →
      freqModePartitionProps fsqrt k v := by
  intro fsqrt k v hk
  unfold freqModePartitionProps
  have H := freqAssignAux_spec fsqrt (freqTotal v.storage)
    (freqNorm fsqrt v.storage) k hk v.storage 0 0 (Nat.zero_le _)
  rw [show freqAssignAux fsqrt (freqTotal v.storage) (freqNorm fsqrt v.storage)
    k 0 0 v.storage = freqAssign fsqrt k v.storage from rfl] at H
  obtain ⟨hlen, hptr, hrange, hcn, hword⟩ := H
  have hrange' : ∀ e ∈ (freqAssign fsqrt k v.storage).1,
      0 ≤ e.classIndex ∧ e.classIndex ≤ (k : Int) - 1 :=
    fun e he => ⟨(hrange e he).2.1, (hrange e he).2.2⟩
  have hidx : ∀ i, i < (freqAssign fsqrt k v.storage).1.length →
      0 ≤ classIndexAt (freqAssign fsqrt k v.storage).1 i ∧
      classIndexAt (freqAssign fsqrt k v.storage).1 i ≤ (k : Int) - 1 := by
    intro i hi
    have hmem : (freqAssign fsqrt k v.storage).1[i] ∈
        (freqAssign fsqrt k v.storage).1 := List.getElem_mem hi
    have hcl : classIndexAt (freqAssign fsqrt k v.storage).1 i =
        (freqAssign fsqrt k v.storage).1[i].classIndex := by
      simp [classIndexAt, List.get?_eq_getElem?, List.getElem?_eq_getElem hi]
    rw [hcl]
    exact hrange' _ hmem
  refine ⟨hrange', hptr, hcn, ?_, ?_, ?_⟩
  · intro i hi
    obtain ⟨h0, h1⟩ := hidx i hi
    refine ⟨(classIndexAt (freqAssign fsqrt k v.storage).1 i).toNat,
      ⟨by omega, by omega⟩, ?_⟩
    rintro c ⟨hc, hceq⟩
    omega
  · intro c hc
    show ((List.range k).map
      (fun c : ℕ => (List.range (freqAssign fsqrt k v.storage).1.length).filter
        (fun i => classIndexAt (freqAssign fsqrt k v.storage).1 i = (c : Int))))[c]? = _
    rw [List.getElem?_map, List.getElem?_range hc]
    rfl
  · have hmaps : ∀ i ∈ Finset.range (freqAssign fsqrt k v.storage).1.length,
        (classIndexAt (freqAssign fsqrt k v.storage).1 i).toNat ∈ Finset.range k := by
      intro i hi
      rw [Finset.mem_range] at hi ⊢
      obtain ⟨h0, h1⟩ := hidx i hi
      omega
    have hfib := Finset.sum_fiberwise_of_maps_to hmaps
      (cnAt (freqAssign fsqrt k v.storage).1)
    rw [← hfib]
    refine Finset.sum_congr rfl ?_
    intro c hc
    refine Finset.sum_congr ?_ (fun _ _ => rfl)
    refine Finset.filter_congr ?_
    intro i hi
    rw [Finset.mem_range] at hi
    obtain ⟨h0, _⟩ := hidx i hi
    constructor
    · intro h
      rw [Finset.mem_range] at hc
      omega
    · intro h
      omega

/-- Witness for C3 on the spec's concrete scenario
`{the:100, </s>:5, cat:3, dog:2}` with two classes, with the identity
standing in for `sqrt`. -/
theorem assignWords_frequency_mode_partition_witness :
    1 ≤ 2 ∧ freqModePartitionProps id 2
      (mkVocabulary
        [⟨"the", 100, 0, 0⟩, ⟨"</s>", 5, 0, 0⟩, ⟨"cat", 3, 0, 0⟩, ⟨"dog", 2, 0, 0⟩]) :=
  ⟨by decide,
    assignWords_frequency_mode_partition id 2
      (mkVocabulary
        [⟨"the", 100, 0, 0⟩, ⟨"</s>", 5, 0, 0⟩, ⟨"cat", 3, 0, 0⟩, ⟨"dog", 2, 0, 0⟩])
      (by decide)⟩

theorem freqAssignAux_length (fsqrt : ℚ → ℚ) (b dd : ℚ) (k : ℕ) :
    ∀ (es : List VocabWord) (df : ℚ) (a : ℕ),
      (freqAssignAux fsqrt b dd k df a es).1.length = es.length := by
  intro es
  induction es with
  | nil => intro df a; rfl
  | cons e es ih => intro df a; simpa [freqAssignAux] using ih _ _

theorem classWords_all_nonempty_iff (k : ℕ) (st : List VocabWord) :
    ((classWords k st).all (fun g => !g.isEmpty) = true) ↔
      ∀ c, c < k → (List.range st.length).filter
        (fun i => classIndexAt st i = (c : Int)) ≠ [] := by
  rw [List.all_eq_true]
  constructor
  · intro h c hc
    have hg := h _ (List.mem_map.mpr ⟨c, List.mem_range.mpr hc, rfl⟩)
    simpa using hg
  · intro h g hg
    obtain ⟨c, hc, rfl⟩ := List.mem_map.mp hg
    simpa using h c (List.mem_range.mp hc)

/-- C5 counterexample: the claim asserts the non-empty-class assertion never
fires in frequency mode for a non-empty vocabulary and `numClasses ≥ 1`.  On
the one-word vocabulary `[</s>:1]` with `numClasses = 2`, only class `0` can
receive a member, class `1` stays empty, and `AssignWordsToClasses` hits
`assert(!(m_classWords[1].empty()))` (modelled as `none`).  At this input
the identity agrees with the double `sqrt` (`sqrt(1/1) = 1` exactly), and
the outcome is the same for every `fsqrt`: a single entry can populate only
one of the two classes. -/
theorem assignWords_empty_class_assertion_fires :
    assignWordsToClasses id false 2 (mkVocabulary [⟨"</s>", 1, 0, 0⟩]) = none ∧
    (mkVocabulary [⟨"</s>", 1, 0, 0⟩]).storage ≠ [] ∧ (1 : ℕ) ≤ 2 := by
  refine ⟨by decide, by decide, by decide⟩

/-- C5 (amended): after either assignment mode the code checks
`assert(!(m_classWords[i].empty()))` for every class; in frequency mode the
function returns normally iff every class in `[0, numClasses−1]` received at
least one member, and the assertion *can* fire — it necessarily does
whenever `numClasses` exceeds the vocabulary size (proved for every `fsqrt`
standing in for the double `sqrt`). -/
theorem assignWords_empty_class_assertion_characterized :
    ∀ (fsqrt : ℚ → ℚ) (k : ℕ) (v : Vocabulary), 1 ≤ k →
      (assignWordsToClasses fsqrt false k v = none ↔
        ∃ c, c < k ∧
          (List.range (freqAssign fsqrt k v.storage).1.length).filter
            (fun i => classIndexAt (freqAssign fsqrt k v.storage).1 i = (c : Int)) =
            []) ∧
      (v.storage.length < k → assignWordsToClasses fsqrt false k v = none) := by
  intro fsqrt k v hk
  have hbranch : assignWordsToClasses fsqrt false k v =
      if (classWords k (freqAssign fsqrt k v.storage).1).all (fun g => !g.isEmpty)
      then some { v with storage := (freqAssign fsqrt k v.storage).1 }
      else none := rfl
  have hiff : assignWordsToClasses fsqrt false k v = none ↔
      ∃ c, c < k ∧
        (List.range (freqAssign fsqrt k v.storage).1.length).filter
          (fun i => classIndexAt (freqAssign fsqrt k v.storage).1 i = (c : Int)) =
          [] := by
    rw [hbranch]
    by_cases hall : (classWords k (freqAssign fsqrt k v.storage).1).all
        (fun g => !g.isEmpty) = true
    · rw [if_pos hall]
      constructor
      · intro h
        exact absurd h (Option.some_ne_none _)
      · rintro ⟨c, hc, hfil⟩
        exact absurd hfil ((classWords_all_nonempty_iff k _).mp hall c hc)
    · rw [if_neg hall]
      constructor
      · intro _
        by_contra hno
        push_neg at hno
        exact hall ((classWords_all_nonempty_iff k _).mpr hno)
      · intro _
        rfl
  refine ⟨hiff, ?_⟩
  intro hlt
  rcases Classical.em (assignWordsToClasses fsqrt false k v = none) with h | h
  · exact h
  · exfalso
    have hno : ∀ c, c < k →
        (List.range (freqAssign fsqrt k v.storage).1.length).filter
          (fun i => classIndexAt (freqAssign fsqrt k v.storage).1 i = (c : Int)) ≠
          [] :=
      fun c hc hfil => h (hiff.mpr ⟨c, hc, hfil⟩)
    have hsub : Finset.range k ⊆
        (Finset.range (freqAssign fsqrt k v.storage).1.length).image
          (fun i => (classIndexAt (freqAssign fsqrt k v.storage).1 i).toNat) := by
      intro c hc
      rw [Finset.mem_range] at hc
      have hfil := hno c hc
      have hex : ∃ i ∈ List.range (freqAssign fsqrt k v.storage).1.length,
          classIndexAt (freqAssign fsqrt k v.storage).1 i = (c : Int) := by
        by_contra hnone
        push_neg at hnone
        refine hfil (List.filter_eq_nil_iff.mpr ?_)
        intro a ha
        simpa using hnone a ha
      obtain ⟨i, hi, hieq⟩ := hex
      rw [Finset.mem_image]
      exact ⟨i, by simpa using hi, by rw [hieq]; simp⟩
    have hcard := Finset.card_le_card hsub
    have himg := Finset.card_image_le
      (s := Finset.range (freqAssign fsqrt k v.storage).1.length)
      (f := fun i => (classIndexAt (freqAssign fsqrt k v.storage).1 i).toNat)
    rw [Finset.card_range] at hcard himg
    have hlen : (freqAssign fsqrt k v.storage).1.length = v.storage.length :=
      freqAssignAux_length fsqrt (freqTotal v.storage) (freqNorm fsqrt v.storage)
        k v.storage 0 0
    omega

/-- Witness for the amended C5: one word, one class — the assertion passes
and the characterization instantiates. -/
theorem assignWords_empty_class_assertion_characterized_witness :
    1 ≤ 1 ∧
    ((assignWordsToClasses id false 1 (mkVocabulary [⟨"</s>", 1, 0, 0⟩]) = none ↔
      ∃ c : ℕ, c < 1 ∧
        (List.range (freqAssign id 1
            (mkVocabulary [⟨"</s>", 1, 0, 0⟩]).storage).1.length).filter
          (fun i => classIndexAt (freqAssign id 1
            (mkVocabulary [⟨"</s>", 1, 0, 0⟩]).storage).1 i = (c : Int)) = []) ∧
    ((mkVocabulary [⟨"</s>", 1, 0, 0⟩]).storage.length < 1 →
      assignWordsToClasses id false 1 (mkVocabulary [⟨"</s>", 1, 0, 0⟩]) = none)) :=
  ⟨le_refl 1,
    assignWords_empty_class_assertion_characterized id 1
      (mkVocabulary [⟨"</s>", 1, 0, 0⟩]) (le_refl 1)⟩

/-! ### Scanner and renderer lemmas for the round trip -/

theorem takeWhile_append_all (p : Char → Bool) (ds rest : List Char)
    (hds : ∀ c ∈ ds, p c = true)
    (hrest : ∀ c, rest.head? = some c → p c = false) :
    (ds ++ rest).takeWhile p = ds ∧ (ds ++ rest).dropWhile p = rest := by
  induction ds with
  | nil =>
    simp only [List.nil_append]
    cases rest with
    | nil => exact ⟨rfl, rfl⟩
    | cons c cs =>
      have hc := hrest c rfl
      exact ⟨by simp [List.takeWhile_cons, hc], by simp [List.dropWhile_cons, hc]⟩
  | cons d ds ih =>
    have hd := hds d (List.mem_cons_self _ _)
    obtain ⟨h1, h2⟩ := ih (fun c hc => hds c (List.mem_cons_of_mem _ hc))
    exact ⟨by simp [List.takeWhile_cons, hd, h1], by simp [List.dropWhile_cons, hd, h2]⟩

theorem dropWhile_append_all (p : Char → Bool) (ws cs : List Char)
    (hws : ∀ c ∈ ws, p c = true) :
    (ws ++ cs).dropWhile p = cs.dropWhile p := by
  induction ws with
  | nil => rfl
  | cons w ws ih =>
    have hw := hws w (List.mem_cons_self _ _)
    simpa [List.dropWhile_cons, hw] using ih (fun c hc => hws c (List.mem_cons_of_mem _ hc))

theorem dropWhile_head_false (p : Char → Bool) (l : List Char)
    (h : ∀ c, l.head? = some c → p c = false) : l.dropWhile p = l := by
  cases l with
  | nil => rfl
  | cons c cs => rw [List.dropWhile_cons, if_neg (by simp [h c rfl])]

theorem head_cons_false (p : Char → Bool) (x : Char) (X : List Char)
    (hx : p x = false) : ∀ c, (x :: X).head? = some c → p c = false := by
  intro c hc
  simp only [List.head?_cons, Option.some.injEq] at hc
  rw [← hc]
  exact hx

theorem natDigitsAux_eq (fuel : ℕ) :
    ∀ n, n ≤ fuel → natDigitsAux fuel n = Nat.digits 10 n := by
  induction fuel with
  | zero =>
    intro n h
    have : n = 0 := Nat.le_zero.mp h
    subst this
    simp [natDigitsAux]
  | succ fuel ih =>
    intro n h
    unfold natDigitsAux
    by_cases hn : n = 0
    · subst hn; simp
    · rw [if_neg hn]
      have hdiv : n / 10 ≤ fuel := by
        have := Nat.div_lt_self (Nat.pos_of_ne_zero hn) (by norm_num : 1 < 10)
        omega
      rw [ih (n / 10) hdiv,
        Nat.digits_def' (by norm_num : (1 : ℕ) < 10) (Nat.pos_of_ne_zero hn)]

theorem natDigits_eq (n : ℕ) : natDigits n = Nat.digits 10 n :=
  natDigitsAux_eq n n (le_refl n)

theorem digitVal_digitChar (d : ℕ) (h : d < 10) : digitVal (digitChar d) = d := by
  interval_cases d <;> decide

theorem isDigitChar_digitChar (d : ℕ) (h : d < 10) :
    isDigitChar (digitChar d) = true := by
  interval_cases d <;> decide

theorem not_space_digitChar (d : ℕ) (h : d < 10) :
    isSpaceChar (digitChar d) = false := by
  interval_cases d <;> decide

theorem natChars_ne_nil (n : ℕ) : natChars n ≠ [] := by
  unfold natChars
  by_cases h : n = 0
  · rw [if_pos h]; simp
  · rw [if_neg h]
    intro hmap
    rw [List.map_eq_nil_iff, List.reverse_eq_nil_iff, natDigits_eq] at hmap
    exact h (Nat.digits_eq_nil_iff_eq_zero.mp hmap)

theorem mem_natChars (n : ℕ) :
    ∀ c ∈ natChars n, isDigitChar c = true ∧ isSpaceChar c = false := by
  intro c hc
  unfold natChars at hc
  by_cases h : n = 0
  · rw [if_pos h] at hc
    simp only [List.mem_singleton] at hc
    subst hc
    exact ⟨by decide, by decide⟩
  · rw [if_neg h] at hc
    obtain ⟨d, hd, rfl⟩ := List.mem_map.mp hc
    rw [List.mem_reverse, natDigits_eq] at hd
    have hd10 : d < 10 := Nat.digits_lt_base (by norm_num) hd
    exact ⟨isDigitChar_digitChar d hd10, not_space_digitChar d hd10⟩

theorem foldr_ofDigits (L : List ℕ) :
    L.foldr (fun x y => 10 * y + x) 0 = Nat.ofDigits 10 L := by
  induction L with
  | nil => simp [Nat.ofDigits_nil]
  | cons d L ih =>
    simp only [List.foldr_cons, Nat.ofDigits_cons, ih]
    ring

theorem digitsVal_map_reverse (L : List ℕ) (hL : ∀ d ∈ L, d < 10) :
    digitsVal (L.reverse.map digitChar) = Nat.ofDigits 10 L := by
  unfold digitsVal
  rw [List.foldl_map]
  have hcong : ∀ (M : List ℕ) (a : ℕ), (∀ d ∈ M, d < 10) →
      M.foldl (fun a d => 10 * a + digitVal (digitChar d)) a =
        M.foldl (fun a d => 10 * a + d) a := by
    intro M
    induction M with
    | nil => intro a _; rfl
    | cons d M ih =>
      intro a hM
      simp only [List.foldl_cons]
      rw [digitVal_digitChar d (hM d (List.mem_cons_self _ _))]
      exact ih _ (fun x hx => hM x (List.mem_cons_of_mem _ hx))
  rw [hcong _ _ (fun d hd => hL d (List.mem_reverse.mp hd))]
  rw [List.foldl_reverse]
  exact foldr_ofDigits L

theorem digitsVal_natChars (n : ℕ) : digitsVal (natChars n) = n := by
  unfold natChars
  by_cases h : n = 0
  · rw [if_pos h]; subst h; rfl
  · rw [if_neg h, natDigits_eq,
      digitsVal_map_reverse (Nat.digits 10 n)
        (fun d hd => Nat.digits_lt_base (by norm_num) hd),
      Nat.ofDigits_digits]

theorem scanNatDigits_natChars (n : ℕ) (rest : List Char)
    (hrest : ∀ c, rest.head? = some c → isDigitChar c = false) :
    scanNatDigits (natChars n ++ rest) = some (n, rest) := by
  obtain ⟨ht, hd⟩ := takeWhile_append_all isDigitChar (natChars n) rest
    (fun c hc => (mem_natChars n c hc).1) hrest
  simp only [scanNatDigits, ht, hd]
  rw [if_neg (by simp [List.isEmpty_iff, natChars_ne_nil n])]
  rw [digitsVal_natChars]

theorem scanInt_ws (ws cs : List Char) (hws : ∀ c ∈ ws, isSpaceChar c = true) :
    scanInt (ws ++ cs) = scanInt cs := by
  unfold scanInt
  rw [dropWhile_append_all isSpaceChar ws cs hws]

theorem scanToken_ws (ws cs : List Char) (hws : ∀ c ∈ ws, isSpaceChar c = true) :
    scanToken (ws ++ cs) = scanToken cs := by
  simp only [scanToken]
  rw [dropWhile_append_all isSpaceChar ws cs hws]

theorem scanInt_render (n : Int) (rest : List Char)
    (hrest : ∀ c, rest.head? = some c → isDigitChar c = false) :
    scanInt (intChars n ++ rest) = some (n, rest) := by
  unfold scanInt intChars
  by_cases hn : n < 0
  · rw [if_pos hn, List.cons_append,
      dropWhile_head_false isSpaceChar _
        (head_cons_false isSpaceChar '-' _ (by decide))]
    show scanIntAux ('-' :: (natChars n.natAbs ++ rest)) = some (n, rest)
    simp only [scanIntAux, if_pos rfl]
    rw [scanNatDigits_natChars n.natAbs rest hrest]
    simp only [Option.map_some']
    have : -((n.natAbs : ℕ) : Int) = n := by omega
    rw [this]
    simp
  · rw [if_neg hn]
    obtain ⟨d, ds, hds⟩ : ∃ d ds, natChars n.toNat = d :: ds := by
      cases hnc : natChars n.toNat with
      | nil => exact absurd hnc (natChars_ne_nil _)
      | cons d ds => exact ⟨d, ds, rfl⟩
    have hdmem : d ∈ natChars n.toNat := by rw [hds]; exact List.mem_cons_self _ _
    obtain ⟨hdig, hsp⟩ := mem_natChars n.toNat d hdmem
    have hdm : d ≠ '-' := by
      intro h; rw [h] at hdig; exact absurd hdig (by decide)
    have hdp : d ≠ '+' := by
      intro h; rw [h] at hdig; exact absurd hdig (by decide)
    rw [hds, List.cons_append,
      dropWhile_head_false isSpaceChar _ (head_cons_false isSpaceChar d _ hsp)]
    show scanIntAux (d :: (ds ++ rest)) = some (n, rest)
    simp only [scanIntAux, if_neg hdm, if_neg hdp]
    rw [show d :: (ds ++ rest) = (d :: ds) ++ rest from rfl, ← hds,
      scanNatDigits_natChars n.toNat rest hrest]
    simp only [Option.map_some']
    have : ((n.toNat : ℕ) : Int) = n := by omega
    rw [this]

theorem scanInt_exact (ws : List Char) (n : Int) (rest : List Char)
    (hws : ∀ c ∈ ws, isSpaceChar c = true)
    (hrest : ∀ c, rest.head? = some c → isDigitChar c = false) :
    scanInt (ws ++ (intChars n ++ rest)) = some (n, rest) := by
  rw [scanInt_ws ws _ hws]
  exact scanInt_render n rest hrest

theorem scanInt_padded (ws : List Char) (w : ℕ) (n : Int) (rest : List Char)
    (hws : ∀ c ∈ ws, isSpaceChar c = true)
    (hrest : ∀ c, rest.head? = some c → isDigitChar c = false) :
    scanInt (ws ++ (padLeft w (intChars n) ++ rest)) = some (n, rest) := by
  have hshape : ws ++ (padLeft w (intChars n) ++ rest) =
      (ws ++ List.replicate (w - (intChars n).length) ' ') ++ (intChars n ++ rest) := by
    simp [padLeft, List.append_assoc]
  rw [hshape]
  refine scanInt_exact _ n rest ?_ hrest
  intro c hc
  rcases List.mem_append.mp hc with h | h
  · exact hws c h
  · rw [List.eq_of_mem_replicate h]; decide

theorem scanToken_run (word rest : List Char) (hw : word ≠ [])
    (hwp : ∀ c ∈ word, isSpaceChar c = false)
    (hrest : ∀ c, rest.head? = some c → isSpaceChar c = true) :
    scanToken (word ++ rest) = some (String.mk word, rest) := by
  obtain ⟨ht, hd⟩ := takeWhile_append_all (fun c => !isSpaceChar c) word rest
    (fun c hc => by simp [hwp c hc]) (fun c hc => by simp [hrest c hc])
  have hhead : ∀ c, (word ++ rest).head? = some c → isSpaceChar c = false := by
    cases word with
    | nil => exact absurd rfl hw
    | cons d ds =>
      exact head_cons_false isSpaceChar d _ (hwp d (List.mem_cons_self _ _))
  simp only [scanToken]
  rw [dropWhile_head_false isSpaceChar _ hhead, ht, hd,
    if_neg (by simp [List.isEmpty_iff, hw])]

theorem scanToken_exact (ws word rest : List Char)
    (hws : ∀ c ∈ ws, isSpaceChar c = true) (hw : word ≠ [])
    (hwp : ∀ c ∈ word, isSpaceChar c = false)
    (hrest : ∀ c, rest.head? = some c → isSpaceChar c = true) :
    scanToken (ws ++ (word ++ rest)) = some (String.mk word, rest) := by
  rw [scanToken_ws ws _ hws]
  exact scanToken_run word rest hw hwp hrest

theorem head_cons_true (p : Char → Bool) (x : Char) (X : List Char)
    (hx : p x = true) : ∀ c, (x :: X).head? = some c → p c = true := by
  intro c hc
  simp only [List.head?_cons, Option.some.injEq] at hc
  rw [← hc]
  exact hx

theorem string_mk_data (s : String) : String.mk s.data = s := by
  cases s
  rfl

theorem loadRow_renderRow (a : ℕ) (e : VocabWord) (ws rest : List Char)
    (hws : ∀ c ∈ ws, isSpaceChar c = true)
    (hw1 : e.word.data ≠ []) (hw2 : ∀ c ∈ e.word.data, isSpaceChar c = false) :
    loadRow a (ws ++ (renderRow a e ++ rest)) =
      some ({ e with prob := 0 }, '\n' :: rest) := by
  have htab : ∀ c ∈ ['\t'], isSpaceChar c = true := by
    intro c hc
    simp only [List.mem_singleton] at hc
    rw [hc]
    decide
  have hshape : ws ++ (renderRow a e ++ rest) =
      ws ++ (padLeft 6 (intChars (a : Int)) ++
        ('\t' :: (padLeft 10 (intChars e.cn) ++
          ('\t' :: (e.word.data ++
            ('\t' :: (intChars e.classIndex ++ ('\n' :: rest)))))))) := by
    simp [renderRow, List.append_assoc]
  have h1 : scanInt (ws ++ (padLeft 6 (intChars (a : Int)) ++
      ('\t' :: (padLeft 10 (intChars e.cn) ++
        ('\t' :: (e.word.data ++
          ('\t' :: (intChars e.classIndex ++ ('\n' :: rest))))))))) =
      some ((a : Int), '\t' :: (padLeft 10 (intChars e.cn) ++
        ('\t' :: (e.word.data ++
          ('\t' :: (intChars e.classIndex ++ ('\n' :: rest))))))) :=
    scanInt_padded ws 6 (a : Int) _ hws
      (head_cons_false isDigitChar '\t' _ (by decide))
  have h2 : scanInt ('\t' :: (padLeft 10 (intChars e.cn) ++
      ('\t' :: (e.word.data ++
        ('\t' :: (intChars e.classIndex ++ ('\n' :: rest))))))) =
      some (e.cn, '\t' :: (e.word.data ++
        ('\t' :: (intChars e.classIndex ++ ('\n' :: rest))))) :=
    scanInt_padded ['\t'] 10 e.cn _ htab
      (head_cons_false isDigitChar '\t' _ (by decide))
  have h3 : scanToken ('\t' :: (e.word.data ++
      ('\t' :: (intChars e.classIndex ++ ('\n' :: rest))))) =
      some (e.word, '\t' :: (intChars e.classIndex ++ ('\n' :: rest))) := by
    have := scanToken_exact ['\t'] e.word.data
      ('\t' :: (intChars e.classIndex ++ ('\n' :: rest))) htab hw1 hw2
      (head_cons_true isSpaceChar '\t' _ (by decide))
    rw [string_mk_data] at this
    exact this
  have h4 : scanInt ('\t' :: (intChars e.classIndex ++ ('\n' :: rest))) =
      some (e.classIndex, '\n' :: rest) :=
    scanInt_exact ['\t'] e.classIndex ('\n' :: rest) htab
      (head_cons_false isDigitChar '\n' _ (by decide))
  have hwo : scanWordOr ('\t' :: (e.word.data ++
      ('\t' :: (intChars e.classIndex ++ ('\n' :: rest))))) =
      (e.word, '\t' :: (intChars e.classIndex ++ ('\n' :: rest))) := by
    unfold scanWordOr
    rw [h3]
  rw [hshape]
  unfold loadRow
  rw [h1]
  simp only [Option.some_bind]
  rw [h2]
  simp only [Option.some_bind]
  simp [hwo, h4]

theorem loadRows_saveRows :
    ∀ (es : List VocabWord) (a : ℕ) (ws : List Char),
      (∀ c ∈ ws, isSpaceChar c = true) →
      (∀ e ∈ es, e.word.data ≠ [] ∧ ∀ c ∈ e.word.data, isSpaceChar c = false) →
      loadRows es.length a (ws ++ saveRows a es) =
        some (es.map (fun e => { e with prob := 0 })) := by
  intro es
  induction es with
  | nil => intro a ws _ _; rfl
  | cons e es ih =>
    intro a ws hws hgood
    obtain ⟨hw1, hw2⟩ := hgood e (List.mem_cons_self _ _)
    have hrow := loadRow_renderRow a e ws (saveRows (a + 1) es) hws hw1 hw2
    show loadRows (es.length + 1) a (ws ++ (renderRow a e ++ saveRows (a + 1) es)) = _
    unfold loadRows
    rw [hrow]
    have hih := ih (a + 1) ['\n']
      (by intro c hc; simp only [List.mem_singleton] at hc; rw [hc]; decide)
      (fun x hx => hgood x (List.mem_cons_of_mem _ hx))
    have hih2 : loadRows es.length (a + 1) ('\n' :: saveRows (a + 1) es) =
        some (es.map (fun e => { e with prob := 0 })) := hih
    simp [hih2]

/-- C8 counterexample: the round trip fails on a vocabulary whose single
word contains a space (`"a b"` — `AddWordToVocabulary` accepts arbitrary
strings, "word or multi-word entity").  `Save` writes the row
`0\t1\ta b\t0`, but on reload `%s` stops at the space, the class `%d` then
hits `b` and converts nothing, leaving the C++ variable uninitialized
(modelled `none`): no vocabulary with the original `IndexOf`/count/class
values is reconstructed. -/
theorem saveLoad_roundtrip_fails_on_space_word :
    loadVocabulary (consumeVocabularyHeader (saveVocabulary
      (mkVocabulary [⟨"a b", 1, 0, 0⟩]))) 1 = none ∧
    (mkVocabulary [⟨"a b", 1, 0, 0⟩]).storage.length = 1 := by
  refine ⟨by decide, rfl⟩

/-- C8 (amended): for every vocabulary whose maps are in sync with its
storage and whose words are non-empty and whitespace-free, writing with
`Save` and reconstructing with the `FILE*` constructor (expectedSize = N,
stream positioned past the `Vocabulary:` header by the caller) succeeds and
yields a vocabulary with identical word/count/class triples at every index
(only the unused `prob` is reset to `0`) and an identical `IndexOf` result
for every string. -/
theorem saveVocabulary_loadVocabulary_roundtrip :
    ∀ v : Vocabulary,
      v.mapWord2Index = buildWordMap (v.storage.map (·.word)) →
      (∀ e ∈ v.storage, e.word.data ≠ [] ∧ ∀ c ∈ e.word.data, isSpaceChar c = false) →
      loadVocabulary (consumeVocabularyHeader (saveVocabulary v)) v.storage.length =
        some (mkVocabulary (v.storage.map (fun e => { e with prob := 0 }))) ∧
      (v.storage.map (fun e => { e with prob := 0 })).map
          (fun e => (e.word, e.cn, e.classIndex)) =
        v.storage.map (fun e => (e.word, e.cn, e.classIndex)) ∧
      (∀ w, searchWordInVocabulary
          (mkVocabulary (v.storage.map (fun e => { e with prob := 0 }))) w =
        searchWordInVocabulary v w) := by
  intro v hsync hgood
  have hheader : consumeVocabularyHeader (saveVocabulary v) = saveRows 0 v.storage := by
    unfold consumeVocabularyHeader saveVocabulary
    rw [List.take_left, if_pos rfl, List.drop_left]
  have hload := loadRows_saveRows v.storage 0 [] (by intro c hc; cases hc) hgood
  rw [List.nil_append] at hload
  have hwords : (v.storage.map (fun e => ({ e with prob := 0 } : VocabWord))).map
      (·.word) = v.storage.map (·.word) := by
    rw [List.map_map]
    rfl
  refine ⟨?_, ?_, ?_⟩
  · unfold loadVocabulary
    rw [hheader, hload]
    rfl
  · rw [List.map_map]
    rfl
  · intro w
    show (lookupAssoc (buildWordMap ((v.storage.map
      (fun e => ({ e with prob := 0 } : VocabWord))).map
        (fun e : VocabWord => e.word))) w).getD (-1) =
      (lookupAssoc v.mapWord2Index w).getD (-1)
    rw [hwords, hsync]

/-- Witness for the amended C8 on a concrete two-word vocabulary. -/
theorem saveVocabulary_loadVocabulary_roundtrip_witness :
    loadVocabulary (consumeVocabularyHeader (saveVocabulary
        (mkVocabulary [⟨"the", 100, 2, 0⟩, ⟨"</s>", 5, 1, 0⟩])))
      (mkVocabulary [⟨"the", 100, 2, 0⟩, ⟨"</s>", 5, 1, 0⟩]).storage.length =
      some (mkVocabulary ((mkVocabulary
        [⟨"the", 100, 2, 0⟩, ⟨"</s>", 5, 1, 0⟩]).storage.map
          (fun e => { e with prob := 0 }))) ∧
    ((mkVocabulary [⟨"the", 100, 2, 0⟩, ⟨"</s>", 5, 1, 0⟩]).storage.map
        (fun e => { e with prob := 0 })).map
        (fun e => (e.word, e.cn, e.classIndex)) =
      (mkVocabulary [⟨"the", 100, 2, 0⟩, ⟨"</s>", 5, 1, 0⟩]).storage.map
        (fun e => (e.word, e.cn, e.classIndex)) ∧
    (∀ w, searchWordInVocabulary
        (mkVocabulary ((mkVocabulary
          [⟨"the", 100, 2, 0⟩, ⟨"</s>", 5, 1, 0⟩]).storage.map
            (fun e => { e with prob := 0 }))) w =
      searchWordInVocabulary
        (mkVocabulary [⟨"the", 100, 2, 0⟩, ⟨"</s>", 5, 1, 0⟩]) w) :=
  saveVocabulary_loadVocabulary_roundtrip
    (mkVocabulary [⟨"the", 100, 2, 0⟩, ⟨"</s>", 5, 1, 0⟩]) rfl (by decide)

end DepTreeRnn

